import Mathlib

/-!
Shallow embedding of the fractional-indexing library
(src/fractional_indexing.py, src/utils.py, src/handlers.py).

Python strings are modelled as `List Char`; Python string comparison is the
lexicographic order on code points, modelled by the Boolean `ltB`.
Functions that can raise are modelled in `Except String`; `increment_integer`
and `decrement_integer` additionally return `Option` (`none` is Python `None`,
the overflow marker).  `digits.index(c)` raising `ValueError` on absent
characters is modelled by `pyIndex`.
-/

/-- Result monad for code that can raise (`OrderKeyError`, `ValueError`,
`IndexError` are all collapsed into the message string). -/
abbrev Res (α : Type) := Except String α

/-- Keys and alphabets are Python strings, modelled as lists of characters. -/
abbrev Str := List Char

instance {e a : Type} [DecidableEq e] [DecidableEq a] : DecidableEq (Except e a) :=
  fun x y =>
  match x, y with
  | .error v, .error w =>
    if h : v = w then isTrue (by rw [h]) else isFalse (by intro he; cases he; exact h rfl)
  | .error _, .ok _ => isFalse (fun he => Except.noConfusion he)
  | .ok _, .error _ => isFalse (fun he => Except.noConfusion he)
  | .ok v, .ok w =>
    if h : v = w then isTrue (by rw [h]) else isFalse (by intro he; cases he; exact h rfl)

/-- Python lexicographic string comparison `a < b` on code points. -/
def ltB : Str → Str → Bool
  | [], [] => false
  | [], _ :: _ => true
  | _ :: _, [] => false
  | a :: as, b :: bs => if a < b then true else if b < a then false else ltB as bs

/-- The default alphabet `BASE_62_DIGITS` from the source. -/
def BASE_62_DIGITS : Str :=
  String.toList "0123456789ABCDEFGHIJKLMNOPQRSTUVWXYZabcdefghijklmnopqrstuvwxyz"

/-- Python `digits.index(c)`: index of the first occurrence, `ValueError` if absent. -/
def pyIndex (digits : Str) (c : Char) : Res Nat :=
  if c ∈ digits then .ok (digits.indexOf c) else .error "ValueError: substring not found"

/-- Models `round_half_up(0.5 * (a + b))` from the source for natural `a`, `b`:
the float product is exact for all reachable magnitudes (far below 2^52), and
decimal ROUND_HALF_UP of an exact half-integer `(a+b)/2` is `(a+b+1)/2` in
integer arithmetic. -/
def round_half_up (a b : Nat) : Nat := (a + b + 1) / 2

/-- `get_integer_length` from the source: length of the integer part from the head. -/
def get_integer_length (head : Char) : Res Nat :=
  if 'a' ≤ head ∧ head ≤ 'z' then .ok (head.toNat - 'a'.toNat + 2)
  else if 'A' ≤ head ∧ head ≤ 'Z' then .ok ('Z'.toNat - head.toNat + 2)
  else .error "Invalid order key head"

/-- `validate_integer` from the source (`order_key[0]` on an empty string raises). -/
def validate_integer (s : Str) : Res Unit :=
  match s with
  | [] => .error "IndexError"
  | head :: _ =>
    match get_integer_length head with
    | .error msg => .error msg
    | .ok L => if s.length ≠ L then .error "Invalid integer part of order key" else .ok ()

/-- `get_integer_part` from the source. -/
def get_integer_part (key : Str) : Res Str :=
  match key with
  | [] => .error "IndexError"
  | head :: _ =>
    match get_integer_length head with
    | .error msg => .error msg
    | .ok L => if L > key.length then .error "Invalid order key" else .ok (key.take L)

/-- The reserved sentinel `'A' + zero * 26` (smallest encodable integer part). -/
def sentinel (zero : Char) : Str := 'A' :: List.replicate 26 zero

/-- `validate_order_key` from the source. -/
def validate_order_key (key : Str) (digits : Str) : Res Unit :=
  match digits with
  | [] => .error "IndexError: digits is empty"
  | zero :: _ =>
    if key = sentinel zero then .error "Invalid order key"
    else match get_integer_part key with
    | .error msg => .error msg
    | .ok ip =>
      let fp := key.drop ip.length
      if ¬ fp.isEmpty ∧ fp.getLastD zero = zero then .error "Invalid order key" else .ok ()

/-- The right-to-left carry scan of `increment_integer`, on the reversed digit
list (head of the list is the rightmost digit).  `ok none` means every digit
saturated (Python leaves them all set to the zero digit); `ok (some r)` is the
updated reversed digit list. -/
def incDigitsAux (digits : Str) (zero : Char) : Str → Res (Option Str)
  | [] => .ok none
  | c :: rest =>
    match pyIndex digits c with
    | .error msg => .error msg
    | .ok i =>
      if i + 1 = digits.length then
        match incDigitsAux digits zero rest with
        | .error msg => .error msg
        | .ok none => .ok none
        | .ok (some r) => .ok (some (zero :: r))
      else .ok (some (digits.getD (i + 1) zero :: rest))

/-- `increment_integer` from the source. -/
def increment_integer (s : Str) (digits : Str) : Res (Option Str) :=
  match digits with
  | [] => .error "IndexError: digits is empty"
  | zero :: _ =>
    match validate_integer s with
    | .error msg => .error msg
    | .ok _ =>
      match s with
      | [] => .error "IndexError"
      | head :: ds =>
        match incDigitsAux digits zero ds.reverse with
        | .error msg => .error msg
        | .ok (some r) => .ok (some (head :: r.reverse))
        | .ok none =>
          if head = 'Z' then .ok (some ['a', zero])
          else if head = 'z' then .ok none
          else
            let nh := Char.ofNat (head.toNat + 1)
            if 'a' < nh then .ok (some (nh :: (List.replicate ds.length zero ++ [zero])))
            else .ok (some (nh :: (List.replicate ds.length zero).dropLast))

/-- The right-to-left borrow scan of `decrement_integer`, on the reversed digit
list.  `ok none` means every digit was the zero digit (Python leaves them all
set to the maximum digit). -/
def decDigitsAux (digits : Str) (maxd : Char) : Str → Res (Option Str)
  | [] => .ok none
  | c :: rest =>
    match pyIndex digits c with
    | .error msg => .error msg
    | .ok i =>
      if i = 0 then
        match decDigitsAux digits maxd rest with
        | .error msg => .error msg
        | .ok none => .ok none
        | .ok (some r) => .ok (some (maxd :: r))
      else .ok (some (digits.getD (i - 1) maxd :: rest))

/-- `decrement_integer` from the source (`digits[-1]` is `getLastD`; it is only
reached when the alphabet is non-empty). -/
def decrement_integer (s : Str) (digits : Str) : Res (Option Str) :=
  match validate_integer s with
  | .error msg => .error msg
  | .ok _ =>
    match s with
    | [] => .error "IndexError"
    | head :: ds =>
      let maxd := digits.getLastD 'x'
      match decDigitsAux digits maxd ds.reverse with
      | .error msg => .error msg
      | .ok (some r) => .ok (some (head :: r.reverse))
      | .ok none =>
        if head = 'a' then .ok (some ['Z', maxd])
        else if head = 'A' then .ok none
        else
          let nh := Char.ofNat (head.toNat - 1)
          if nh < 'Z' then .ok (some (nh :: (List.replicate ds.length maxd ++ [maxd])))
          else .ok (some (nh :: (List.replicate ds.length maxd).dropLast))

/-- Python truthiness of the optional `end_key` argument of `find_middle_key`:
`None` and the empty string are both falsy. -/
def endTruthy : Option Str → Bool
  | some (_ :: _) => true
  | _ => false

/-- `start_key.ljust(n, zero)` from the source. -/
def padRight (s : Str) (n : Nat) (zero : Char) : Str :=
  s ++ List.replicate (n - s.length) zero

/-- Length of the longest common prefix, as computed by the zip loop in the source. -/
def commonLen : Str → Str → Nat
  | a :: as, b :: bs => if a = b then commonLen as bs + 1 else 0
  | _, _ => 0

/-- Measure used to supply fuel for `find_middle_key`. -/
def eMeasure : Option Str → Nat
  | some l => l.length + 1
  | none => 0

/-- `find_middle_key` from the source, with explicit fuel.  The Python function
is recursive; for alphabets with fewer than 2 symbols it does not terminate
(e.g. `find_middle_key("", None, "0")` recurses on itself), so the embedding
takes fuel and returns the distinguished error `"RecursionError"` when it runs
out.  `find_middle_key` below supplies fuel that is proven sufficient for
alphabets of size at least 2. -/
def findMiddleFuel (digits : Str) : Nat → Str → Option Str → Res Str
  | 0, _, _ => .error "RecursionError"
  | n + 1, s, e =>
    match digits with
    | [] => .error "IndexError: digits is empty"
    | zero :: _ =>
      if (match e with | some l => !ltB s l | none => false) then
        .error "start >= end"
      else if (¬ s.isEmpty ∧ s.getLastD zero = zero) ∨
              (endTruthy e ∧ (e.getD []).getLastD zero = zero) then
        .error "Trailing zero in order key"
      else
        let l := e.getD []
        let k := if endTruthy e then commonLen (padRight s l.length zero) l else 0
        if 0 < k then
          match findMiddleFuel digits n (s.drop k) (some (l.drop k)) with
          | .error msg => .error msg
          | .ok m => .ok (l.take k ++ m)
        else
          match (match s with | [] => (.ok 0 : Res Nat) | c :: _ => pyIndex digits c) with
          | .error msg => .error msg
          | .ok a =>
          match (if endTruthy e then pyIndex digits (l.headD zero) else .ok digits.length) with
          | .error msg => .error msg
          | .ok b =>
            if a + 1 < b then
              .ok [digits.getD (round_half_up a b) zero]
            else if endTruthy e ∧ 1 < l.length then
              .ok [l.headD zero]
            else
              match findMiddleFuel digits n (s.drop 1) none with
              | .error msg => .error msg
              | .ok m => .ok (digits.getD a zero :: m)

/-- `find_middle_key` from the source, with canonical (sufficient) fuel. -/
def find_middle_key (s : Str) (e : Option Str) (digits : Str) : Res Str :=
  findMiddleFuel digits (s.length + eMeasure e + 1) s e

/-- `handle_end_key_only_case` from the source. -/
def handle_end_key_only_case (ek : Str) (digits : Str) : Res Str :=
  match digits with
  | [] => .error "IndexError: digits is empty"
  | zero :: _ =>
    match get_integer_part ek with
    | .error msg => .error msg
    | .ok ip =>
      let fp := ek.drop ip.length
      if ip = sentinel zero then
        match find_middle_key [] (some fp) digits with
        | .error msg => .error msg
        | .ok m => .ok (ip ++ m)
      else if ltB ip ek then .ok ip
      else
        match decrement_integer ip digits with
        | .error msg => .error msg
        | .ok none => .error "Cannot decrement anymore"
        | .ok (some v) => .ok v

/-- `handle_start_key_only_case` from the source. -/
def handle_start_key_only_case (sk : Str) (digits : Str) : Res Str :=
  match get_integer_part sk with
  | .error msg => .error msg
  | .ok ip =>
    let fp := sk.drop ip.length
    match increment_integer ip digits with
    | .error msg => .error msg
    | .ok none =>
      match find_middle_key fp none digits with
      | .error msg => .error msg
      | .ok m => .ok (ip ++ m)
    | .ok (some v) => .ok v

/-- `handle_both_keys_case` from the source. -/
def handle_both_keys_case (sk ek : Str) (digits : Str) : Res Str :=
  match get_integer_part sk with
  | .error msg => .error msg
  | .ok sip =>
    let sfp := sk.drop sip.length
    match get_integer_part ek with
    | .error msg => .error msg
    | .ok eip =>
      let efp := ek.drop eip.length
      if sip = eip then
        match find_middle_key sfp (some efp) digits with
        | .error msg => .error msg
        | .ok m => .ok (sip ++ m)
      else
        match increment_integer sip digits with
        | .error msg => .error msg
        | .ok none => .error "Cannot increment anymore"
        | .ok (some inc) =>
          if ltB inc ek then .ok inc
          else
            match find_middle_key sfp none digits with
            | .error msg => .error msg
            | .ok m => .ok (sip ++ m)

/-- `generate_key_between` from the source (`zero = digits[0]` is read before
validation, so an empty alphabet raises first). -/
def generate_key_between (sk ek : Option Str) (digits : Str) : Res Str :=
  match digits with
  | [] => .error "IndexError: digits is empty"
  | zero :: _ =>
    match (match sk with | some s => validate_order_key s digits | none => .ok ()) with
    | .error msg => .error msg
    | .ok _ =>
    match (match ek with | some e => validate_order_key e digits | none => .ok ()) with
    | .error msg => .error msg
    | .ok _ =>
      if (match sk, ek with | some s, some e => !ltB s e | _, _ => false) then
        .error "start >= end"
      else
        match sk, ek with
        | none, none => .ok ['a', zero]
        | none, some e => handle_end_key_only_case e digits
        | some s, none => handle_start_key_only_case s digits
        | some s, some e => handle_both_keys_case s e digits

/-- The loop of `handle_generate_n_keys_with_end_none`: `m` further steps of
`current_key = generate_key_between(current_key, None)`. -/
def iterGenUp (digits : Str) : Nat → Str → Res (List Str)
  | 0, _ => .ok []
  | m + 1, cur =>
    match generate_key_between (some cur) none digits with
    | .error msg => .error msg
    | .ok nk =>
      match iterGenUp digits m nk with
      | .error msg => .error msg
      | .ok rest => .ok (nk :: rest)

/-- `handle_generate_n_keys_with_end_none` from the source. -/
def handle_generate_n_keys_with_end_none (sk : Option Str) (n : Nat) (digits : Str) :
    Res (List Str) :=
  match generate_key_between sk none digits with
  | .error msg => .error msg
  | .ok c =>
    match iterGenUp digits (n - 1) c with
    | .error msg => .error msg
    | .ok rest => .ok (c :: rest)

/-- The loop of `handle_generate_n_keys_with_start_none`. -/
def iterGenDown (digits : Str) : Nat → Str → Res (List Str)
  | 0, _ => .ok []
  | m + 1, cur =>
    match generate_key_between none (some cur) digits with
    | .error msg => .error msg
    | .ok nk =>
      match iterGenDown digits m nk with
      | .error msg => .error msg
      | .ok rest => .ok (nk :: rest)

/-- `handle_generate_n_keys_with_start_none` from the source (builds the list
downward then reverses it). -/
def handle_generate_n_keys_with_start_none (ek : Option Str) (n : Nat) (digits : Str) :
    Res (List Str) :=
  match generate_key_between none ek digits with
  | .error msg => .error msg
  | .ok c =>
    match iterGenDown digits (n - 1) c with
    | .error msg => .error msg
    | .ok rest => .ok ((c :: rest).reverse)

/-- `generate_n_keys_between` from the source. -/
def generate_n_keys_between (sk ek : Option Str) (n : Nat) (digits : Str) :
    Res (List Str) :=
  match n with
  | 0 => .ok []
  | 1 =>
    (match generate_key_between sk ek digits with
     | .error msg => .error msg
     | .ok k => .ok [k])
  | m + 2 =>
    match ek with
    | none => handle_generate_n_keys_with_end_none sk (m + 2) digits
    | some e =>
      match sk with
      | none => handle_generate_n_keys_with_start_none (some e) (m + 2) digits
      | some s =>
        let mi := (m + 2) / 2
        match generate_key_between (some s) (some e) digits with
        | .error msg => .error msg
        | .ok mk =>
          match generate_n_keys_between (some s) (some mk) mi digits with
          | .error msg => .error msg
          | .ok left =>
            match generate_n_keys_between (some mk) (some e) (m + 2 - mi - 1) digits with
            | .error msg => .error msg
            | .ok right => .ok (left ++ mk :: right)
termination_by n
decreasing_by
  all_goals omega

/-!
Embedding of src/utils.py.  Its functions are textually identical to the
ones in src/fractional_indexing.py except for redundant parentheses in the
trailing-zero check of `find_middle_key` (`A and B or C` versus
`(A and B) or C`, identical in Python), so the Lean translations coincide
syntactically; they are kept as separate definitions because claim C10 is
about the duplication.
-/

namespace Utils

/-- `get_integer_length` from src/utils.py. -/
def get_integer_length (head : Char) : Res Nat :=
  if 'a' ≤ head ∧ head ≤ 'z' then .ok (head.toNat - 'a'.toNat + 2)
  else if 'A' ≤ head ∧ head ≤ 'Z' then .ok ('Z'.toNat - head.toNat + 2)
  else .error "Invalid order key head"

/-- `validate_integer` from src/utils.py. -/
def validate_integer (s : Str) : Res Unit :=
  match s with
  | [] => .error "IndexError"
  | head :: _ =>
    match Utils.get_integer_length head with
    | .error msg => .error msg
    | .ok L => if s.length ≠ L then .error "Invalid integer part of order key" else .ok ()

/-- `get_integer_part` from src/utils.py. -/
def get_integer_part (key : Str) : Res Str :=
  match key with
  | [] => .error "IndexError"
  | head :: _ =>
    match Utils.get_integer_length head with
    | .error msg => .error msg
    | .ok L => if L > key.length then .error "Invalid order key" else .ok (key.take L)

/-- `validate_order_key` from src/utils.py. -/
def validate_order_key (key : Str) (digits : Str) : Res Unit :=
  match digits with
  | [] => .error "IndexError: digits is empty"
  | zero :: _ =>
    if key = sentinel zero then .error "Invalid order key"
    else match Utils.get_integer_part key with
    | .error msg => .error msg
    | .ok ip =>
      let fp := key.drop ip.length
      if ¬ fp.isEmpty ∧ fp.getLastD zero = zero then .error "Invalid order key" else .ok ()

/-- The carry scan of `increment_integer` from src/utils.py. -/
def incDigitsAux (digits : Str) (zero : Char) : Str → Res (Option Str)
  | [] => .ok none
  | c :: rest =>
    match pyIndex digits c with
    | .error msg => .error msg
    | .ok i =>
      if i + 1 = digits.length then
        match Utils.incDigitsAux digits zero rest with
        | .error msg => .error msg
        | .ok none => .ok none
        | .ok (some r) => .ok (some (zero :: r))
      else .ok (some (digits.getD (i + 1) zero :: rest))

/-- `increment_integer` from src/utils.py. -/
def increment_integer (s : Str) (digits : Str) : Res (Option Str) :=
  match digits with
  | [] => .error "IndexError: digits is empty"
  | zero :: _ =>
    match Utils.validate_integer s with
    | .error msg => .error msg
    | .ok _ =>
      match s with
      | [] => .error "IndexError"
      | head :: ds =>
        match Utils.incDigitsAux digits zero ds.reverse with
        | .error msg => .error msg
        | .ok (some r) => .ok (some (head :: r.reverse))
        | .ok none =>
          if head = 'Z' then .ok (some ['a', zero])
          else if head = 'z' then .ok none
          else
            let nh := Char.ofNat (head.toNat + 1)
            if 'a' < nh then .ok (some (nh :: (List.replicate ds.length zero ++ [zero])))
            else .ok (some (nh :: (List.replicate ds.length zero).dropLast))

/-- The borrow scan of `decrement_integer` from src/utils.py. -/
def decDigitsAux (digits : Str) (maxd : Char) : Str → Res (Option Str)
  | [] => .ok none
  | c :: rest =>
    match pyIndex digits c with
    | .error msg => .error msg
    | .ok i =>
      if i = 0 then
        match Utils.decDigitsAux digits maxd rest with
        | .error msg => .error msg
        | .ok none => .ok none
        | .ok (some r) => .ok (some (maxd :: r))
      else .ok (some (digits.getD (i - 1) maxd :: rest))

/-- `decrement_integer` from src/utils.py. -/
def decrement_integer (s : Str) (digits : Str) : Res (Option Str) :=
  match Utils.validate_integer s with
  | .error msg => .error msg
  | .ok _ =>
    match s with
    | [] => .error "IndexError"
    | head :: ds =>
      let maxd := digits.getLastD 'x'
      match Utils.decDigitsAux digits maxd ds.reverse with
      | .error msg => .error msg
      | .ok (some r) => .ok (some (head :: r.reverse))
      | .ok none =>
        if head = 'a' then .ok (some ['Z', maxd])
        else if head = 'A' then .ok none
        else
          let nh := Char.ofNat (head.toNat - 1)
          if nh < 'Z' then .ok (some (nh :: (List.replicate ds.length maxd ++ [maxd])))
          else .ok (some (nh :: (List.replicate ds.length maxd).dropLast))

/-- `find_middle_key` from src/utils.py, with fuel as for the main embedding. -/
def findMiddleFuel (digits : Str) : Nat → Str → Option Str → Res Str
  | 0, _, _ => .error "RecursionError"
  | n + 1, s, e =>
    match digits with
    | [] => .error "IndexError: digits is empty"
    | zero :: _ =>
      if (match e with | some l => !ltB s l | none => false) then
        .error "start >= end"
      else if (¬ s.isEmpty ∧ s.getLastD zero = zero) ∨
              (endTruthy e ∧ (e.getD []).getLastD zero = zero) then
        .error "Trailing zero in order key"
      else
        let l := e.getD []
        let k := if endTruthy e then commonLen (padRight s l.length zero) l else 0
        if 0 < k then
          match Utils.findMiddleFuel digits n (s.drop k) (some (l.drop k)) with
          | .error msg => .error msg
          | .ok m => .ok (l.take k ++ m)
        else
          match (match s with | [] => (.ok 0 : Res Nat) | c :: _ => pyIndex digits c) with
          | .error msg => .error msg
          | .ok a =>
          match (if endTruthy e then pyIndex digits (l.headD zero) else .ok digits.length) with
          | .error msg => .error msg
          | .ok b =>
            if a + 1 < b then
              .ok [digits.getD (round_half_up a b) zero]
            else if endTruthy e ∧ 1 < l.length then
              .ok [l.headD zero]
            else
              match Utils.findMiddleFuel digits n (s.drop 1) none with
              | .error msg => .error msg
              | .ok m => .ok (digits.getD a zero :: m)

/-- `find_middle_key` from src/utils.py with canonical fuel. -/
def find_middle_key (s : Str) (e : Option Str) (digits : Str) : Res Str :=
  Utils.findMiddleFuel digits (s.length + eMeasure e + 1) s e

/-- Modelled from the spec: `generate_key_between` is imported from `.utils`
by src/handlers.py but is absent from src/utils.py; this definition follows
the spec, section 4.4 "Key Generator" (validate present operands, fail when
both are present and start >= end; both absent: the seed key; only end:
sentinel integer part recurses into the midpoint finder, else the integer
part alone if it is less than end, else decrement with an exhaustion error;
only start: increment, falling back to the midpoint finder on overflow;
both: midpoint of the fractional parts on equal integer parts, else the
incremented integer part when still less than end, else the midpoint
fallback), using the helpers of src/utils.py. -/
def generate_key_between (sk ek : Option Str) (digits : Str) : Res Str :=
  match digits with
  | [] => .error "IndexError: digits is empty"
  | zero :: _ =>
    match (match sk with | some s => Utils.validate_order_key s digits | none => .ok ()) with
    | .error msg => .error msg
    | .ok _ =>
    match (match ek with | some e => Utils.validate_order_key e digits | none => .ok ()) with
    | .error msg => .error msg
    | .ok _ =>
      if (match sk, ek with | some s, some e => !ltB s e | _, _ => false) then
        .error "start >= end"
      else
        match sk, ek with
        | none, none => .ok ['a', zero]
        | none, some ek =>
          (match Utils.get_integer_part ek with
           | .error msg => .error msg
           | .ok ip =>
             let fp := ek.drop ip.length
             if ip = sentinel zero then
               match Utils.find_middle_key [] (some fp) digits with
               | .error msg => .error msg
               | .ok m => .ok (ip ++ m)
             else if ltB ip ek then .ok ip
             else
               match Utils.decrement_integer ip digits with
               | .error msg => .error msg
               | .ok none => .error "Cannot decrement anymore"
               | .ok (some v) => .ok v)
        | some sk, none =>
          (match Utils.get_integer_part sk with
           | .error msg => .error msg
           | .ok ip =>
             let fp := sk.drop ip.length
             match Utils.increment_integer ip digits with
             | .error msg => .error msg
             | .ok none =>
               match Utils.find_middle_key fp none digits with
               | .error msg => .error msg
               | .ok m => .ok (ip ++ m)
             | .ok (some v) => .ok v)
        | some sk, some ek =>
          (match Utils.get_integer_part sk with
           | .error msg => .error msg
           | .ok sip =>
             let sfp := sk.drop sip.length
             match Utils.get_integer_part ek with
             | .error msg => .error msg
             | .ok eip =>
               let efp := ek.drop eip.length
               if sip = eip then
                 match Utils.find_middle_key sfp (some efp) digits with
                 | .error msg => .error msg
                 | .ok m => .ok (sip ++ m)
               else
                 match Utils.increment_integer sip digits with
                 | .error msg => .error msg
                 | .ok none => .error "Cannot increment anymore"
                 | .ok (some inc) =>
                   if ltB inc ek then .ok inc
                   else
                     match Utils.find_middle_key sfp none digits with
                     | .error msg => .error msg
                     | .ok m => .ok (sip ++ m))

end Utils

/-! Embedding of src/handlers.py, which imports its helpers from src/utils.py. -/

namespace Handlers

/-- `handle_end_key_only_case` from src/handlers.py. -/
def handle_end_key_only_case (ek : Str) (digits : Str) : Res Str :=
  match digits with
  | [] => .error "IndexError: digits is empty"
  | zero :: _ =>
    match Utils.get_integer_part ek with
    | .error msg => .error msg
    | .ok ip =>
      let fp := ek.drop ip.length
      if ip = sentinel zero then
        match Utils.find_middle_key [] (some fp) digits with
        | .error msg => .error msg
        | .ok m => .ok (ip ++ m)
      else if ltB ip ek then .ok ip
      else
        match Utils.decrement_integer ip digits with
        | .error msg => .error msg
        | .ok none => .error "Cannot decrement anymore"
        | .ok (some v) => .ok v

/-- `handle_start_key_only_case` from src/handlers.py. -/
def handle_start_key_only_case (sk : Str) (digits : Str) : Res Str :=
  match Utils.get_integer_part sk with
  | .error msg => .error msg
  | .ok ip =>
    let fp := sk.drop ip.length
    match Utils.increment_integer ip digits with
    | .error msg => .error msg
    | .ok none =>
      match Utils.find_middle_key fp none digits with
      | .error msg => .error msg
      | .ok m => .ok (ip ++ m)
    | .ok (some v) => .ok v

/-- `handle_both_keys_case` from src/handlers.py. -/
def handle_both_keys_case (sk ek : Str) (digits : Str) : Res Str :=
  match Utils.get_integer_part sk with
  | .error msg => .error msg
  | .ok sip =>
    let sfp := sk.drop sip.length
    match Utils.get_integer_part ek with
    | .error msg => .error msg
    | .ok eip =>
      let efp := ek.drop eip.length
      if sip = eip then
        match Utils.find_middle_key sfp (some efp) digits with
        | .error msg => .error msg
        | .ok m => .ok (sip ++ m)
      else
        match Utils.increment_integer sip digits with
        | .error msg => .error msg
        | .ok none => .error "Cannot increment anymore"
        | .ok (some inc) =>
          if ltB inc ek then .ok inc
          else
            match Utils.find_middle_key sfp none digits with
            | .error msg => .error msg
            | .ok m => .ok (sip ++ m)

/-- The loop of `handle_generate_n_keys_with_end_none` from src/handlers.py. -/
def iterGenUp (digits : Str) : Nat → Str → Res (List Str)
  | 0, _ => .ok []
  | m + 1, cur =>
    match Utils.generate_key_between (some cur) none digits with
    | .error msg => .error msg
    | .ok nk =>
      match Handlers.iterGenUp digits m nk with
      | .error msg => .error msg
      | .ok rest => .ok (nk :: rest)

/-- `handle_generate_n_keys_with_end_none` from src/handlers.py. -/
def handle_generate_n_keys_with_end_none (sk : Option Str) (n : Nat) (digits : Str) :
    Res (List Str) :=
  match Utils.generate_key_between sk none digits with
  | .error msg => .error msg
  | .ok c =>
    match Handlers.iterGenUp digits (n - 1) c with
    | .error msg => .error msg
    | .ok rest => .ok (c :: rest)

/-- The loop of `handle_generate_n_keys_with_start_none` from src/handlers.py. -/
def iterGenDown (digits : Str) : Nat → Str → Res (List Str)
  | 0, _ => .ok []
  | m + 1, cur =>
    match Utils.generate_key_between none (some cur) digits with
    | .error msg => .error msg
    | .ok nk =>
      match Handlers.iterGenDown digits m nk with
      | .error msg => .error msg
      | .ok rest => .ok (nk :: rest)

/-- `handle_generate_n_keys_with_start_none` from src/handlers.py. -/
def handle_generate_n_keys_with_start_none (ek : Option Str) (n : Nat) (digits : Str) :
    Res (List Str) :=
  match Utils.generate_key_between none ek digits with
  | .error msg => .error msg
  | .ok c =>
    match Handlers.iterGenDown digits (n - 1) c with
    | .error msg => .error msg
    | .ok rest => .ok ((c :: rest).reverse)

end Handlers

/-! Lemmas about the lexicographic comparison `ltB`. -/

theorem ltB_irrefl (s : Str) : ltB s s = false := by
  induction s with
  | nil => rfl
  | cons a as ih => simp [ltB, ih]

theorem ltB_nil_left {s : Str} (h : s ≠ []) : ltB [] s = true := by
  cases s with
  | nil => exact absurd rfl h
  | cons a as => rfl

theorem ltB_nil_right (s : Str) : ltB s [] = false := by
  cases s with
  | nil => rfl
  | cons a as => rfl

theorem ltB_cons_same (a : Char) (s t : Str) : ltB (a :: s) (a :: t) = ltB s t := by
  simp [ltB]

theorem ltB_cons_lt {a b : Char} (h : a < b) (s t : Str) : ltB (a :: s) (b :: t) = true := by
  simp [ltB, h]

theorem ltB_append_cancel (p s t : Str) : ltB (p ++ s) (p ++ t) = ltB s t := by
  induction p with
  | nil => rfl
  | cons a as ih => simpa [ltB_cons_same] using ih

theorem ltB_self_append {s : Str} (p : Str) (h : s ≠ []) : ltB p (p ++ s) = true := by
  have := ltB_append_cancel p [] s
  simpa [ltB_nil_left h] using this

theorem ltB_append_self_right (p s : Str) : ltB (p ++ s) p = false := by
  have := ltB_append_cancel p s []
  simpa [ltB_nil_right] using this

theorem ne_of_ltB {s t : Str} (h : ltB s t = true) : s ≠ t := by
  intro he
  subst he
  simp [ltB_irrefl] at h

theorem ltB_asymm {s t : Str} (h : ltB s t = true) : ltB t s = false := by
  induction s generalizing t with
  | nil =>
    cases t with
    | nil => simp [ltB] at h
    | cons b bs => simp [ltB_nil_right]
  | cons a as ih =>
    cases t with
    | nil => simp [ltB_nil_right] at h
    | cons b bs =>
      by_cases hab : a < b
      · have hba : ¬ b < a := lt_asymm hab
        simp [ltB, hab, hba, lt_irrefl]
      · by_cases hba : b < a
        · simp [ltB, hab, hba] at h
        · have : a = b := le_antisymm (not_lt.mp hba) (not_lt.mp hab)
          subst this
          simp [ltB_cons_same] at h ⊢
          exact ih h

theorem eq_of_not_ltB {s t : Str} (h1 : ltB s t = false) (h2 : ltB t s = false) : s = t := by
  induction s generalizing t with
  | nil =>
    cases t with
    | nil => rfl
    | cons b bs => simp [ltB] at h1
  | cons a as ih =>
    cases t with
    | nil => simp [ltB] at h2
    | cons b bs =>
      by_cases hab : a < b
      · simp [ltB, hab] at h1
      · by_cases hba : b < a
        · simp [ltB, hba, lt_asymm hba] at h2
        · have he : a = b := le_antisymm (not_lt.mp hba) (not_lt.mp hab)
          subst he
          simp only [ltB_cons_same] at h1 h2
          rw [ih h1 h2]

theorem ltB_trans {s t u : Str} (h1 : ltB s t = true) (h2 : ltB t u = true) :
    ltB s u = true := by
  induction s generalizing t u with
  | nil =>
    cases u with
    | nil =>
      cases t with
      | nil => exact h1
      | cons b bs => simp [ltB_nil_right] at h2
    | cons c cs => rfl
  | cons a as ih =>
    cases t with
    | nil => simp [ltB_nil_right] at h1
    | cons b bs =>
      cases u with
      | nil => simp [ltB_nil_right] at h2
      | cons c cs =>
        by_cases hab : a < b
        · by_cases hbc : b < c
          · exact ltB_cons_lt (lt_trans hab hbc) _ _
          · by_cases hcb : c < b
            · simp [ltB, hbc, hcb] at h2
            · have : b = c := le_antisymm (not_lt.mp hcb) (not_lt.mp hbc)
              subst this
              exact ltB_cons_lt hab _ _
        · by_cases hba : b < a
          · simp [ltB, hab, hba] at h1
          · have : a = b := le_antisymm (not_lt.mp hba) (not_lt.mp hab)
            subst this
            rw [ltB_cons_same] at h1
            by_cases hac : a < c
            · exact ltB_cons_lt hac _ _
            · by_cases hca : c < a
              · simp [ltB, hac, hca] at h2
              · have : a = c := le_antisymm (not_lt.mp hca) (not_lt.mp hac)
                subst this
                rw [ltB_cons_same] at h2 ⊢
                exact ih h1 h2

theorem head_lt_of_ltB_of_ne {a b : Char} {s t : Str}
    (h : ltB (a :: s) (b :: t) = true) (hne : a ≠ b) : a < b := by
  by_cases hab : a < b
  · exact hab
  · by_cases hba : b < a
    · simp [ltB, hab, hba] at h
    · exact absurd (le_antisymm (not_lt.mp hba) (not_lt.mp hab)) hne

/-- Strings that differ at some position, the left one smaller there; appending
anything to either side preserves strict ordering. -/
def LtAt (x y : Str) : Prop :=
  ∃ p a b u v, x = p ++ a :: u ∧ y = p ++ b :: v ∧ a < b

theorem LtAt.append_ltB {x y : Str} (h : LtAt x y) (u v : Str) :
    ltB (x ++ u) (y ++ v) = true := by
  obtain ⟨p, a, b, xu, yv, hx, hy, hab⟩ := h
  subst hx; subst hy
  rw [List.append_assoc, List.append_assoc]
  rw [ltB_append_cancel]
  exact ltB_cons_lt hab _ _

theorem LtAt.out {x y : Str} (h : LtAt x y) : ltB x y = true := by
  have := h.append_ltB [] []
  simpa using this

theorem LtAt.left_ltB {x y : Str} (h : LtAt x y) (u : Str) :
    ltB (x ++ u) y = true := by
  have := h.append_ltB u []
  simpa using this

theorem LtAt.right_ltB {x y : Str} (h : LtAt x y) (v : Str) :
    ltB x (y ++ v) = true := by
  have := h.append_ltB [] v
  simpa using this

theorem ltAt_of_eqlen_ltB : ∀ {x y u v : Str}, x.length = y.length → x ≠ y →
    ltB (x ++ u) (y ++ v) = true → LtAt x y := by
  intro x
  induction x with
  | nil =>
    intro y u v hl hne _
    cases y with
    | nil => exact absurd rfl hne
    | cons b bs => simp at hl
  | cons a as ih =>
    intro y u v hl hne h
    cases y with
    | nil => simp at hl
    | cons b bs =>
      by_cases hab : a = b
      · subst hab
        have hne2 : as ≠ bs := by intro he; exact hne (by rw [he])
        simp only [List.cons_append, ltB_cons_same] at h
        obtain ⟨p, c, d2, u2, v2, h1, h2, h3⟩ :=
          ih (by simpa using hl) hne2 h
        exact ⟨a :: p, c, d2, u2, v2, by simp [h1], by simp [h2], h3⟩
      · have := @head_lt_of_ltB_of_ne a b (as ++ u) (bs ++ v) (by simpa using h) hab
        exact ⟨[], a, b, as, bs, rfl, rfl, this⟩

theorem ltAt_of_head_lt {a b : Char} (s t : Str) (h : a < b) :
    LtAt (a :: s) (b :: t) :=
  ⟨[], a, b, s, t, rfl, rfl, h⟩

/-- A proper continuation is lexicographically above any of its prefixes,
whatever follows the shorter string is irrelevant only when the continuation
starts; here: a strict prefix is smaller. -/
theorem ltB_of_proper_prefix {p s : Str} (h : s ≠ []) : ltB p (p ++ s) = true :=
  ltB_self_append p h

/-! The alphabet: a well-formed digit alphabet is strictly ascending in code
points (as the default one is) and has at least two symbols. -/

/-- The zero digit `digits[0]`. -/
def zeroD (d : Str) : Char := d.headD 'x'

/-- The maximum digit `digits[-1]`. -/
def maxD (d : Str) : Char := d.getLastD 'x'

/-- A well-formed alphabet: at least two symbols, strictly ascending by code
point (hence duplicate-free). -/
def GoodDigits (d : Str) : Prop := 2 ≤ d.length ∧ List.Chain' (· < ·) d

theorem GoodDigits.sorted {d : Str} (h : GoodDigits d) : List.Sorted (· < ·) d :=
  List.chain'_iff_pairwise.mp h.2

theorem GoodDigits.nodup {d : Str} (h : GoodDigits d) : d.Nodup :=
  h.sorted.nodup

theorem GoodDigits.ne_nil {d : Str} (h : GoodDigits d) : d ≠ [] := by
  intro he
  rw [he] at h
  simp [GoodDigits] at h

theorem GoodDigits.length_pos {d : Str} (h : GoodDigits d) : 0 < d.length := by
  have := h.1
  omega

theorem zeroD_eq_get {d : Str} (h : d ≠ []) :
    zeroD d = d.get ⟨0, List.length_pos.mpr h⟩ := by
  cases d with
  | nil => exact absurd rfl h
  | cons a as => rfl

theorem zeroD_mem {d : Str} (h : d ≠ []) : zeroD d ∈ d := by
  rw [zeroD_eq_get h]
  exact List.get_mem d _ _

theorem maxD_eq_get {d : Str} (h : d ≠ []) :
    maxD d = d.get ⟨d.length - 1, by
      have := List.length_pos.mpr h
      omega⟩ := by
  have h1 : maxD d = d.getLast h := by
    cases d with
    | nil => exact absurd rfl h
    | cons a as => simp [maxD, List.getLastD_eq_getLast?, List.getLast?_eq_getLast _ h]
  rw [h1, List.getLast_eq_getElem]
  simp [List.get_eq_getElem]

theorem maxD_mem {d : Str} (h : d ≠ []) : maxD d ∈ d := by
  rw [maxD_eq_get h]
  exact List.get_mem d _ _

theorem indexOf_lt_len {d : Str} {c : Char} (h : c ∈ d) : d.indexOf c < d.length :=
  List.indexOf_lt_length.mpr h

theorem get_indexOf_self {d : Str} {c : Char} (h : c ∈ d) :
    d.get ⟨d.indexOf c, indexOf_lt_len h⟩ = c :=
  List.indexOf_get _

theorem indexOf_get_self {d : Str} (hn : d.Nodup) (i : Fin d.length) :
    d.indexOf (d.get i) = i :=
  List.get_indexOf hn i

theorem sorted_get_lt_iff {d : Str} (hs : List.Sorted (· < ·) d)
    (i j : Fin d.length) : d.get i < d.get j ↔ i.val < j.val := by
  constructor
  · intro h
    by_contra hc
    rcases Nat.lt_or_ge j.val i.val with hj | hj
    · have := List.Sorted.rel_get_of_lt hs (by exact hj : j < i)
      exact absurd h (lt_asymm this)
    · have : j = i := Fin.ext (by omega)
      subst this
      exact lt_irrefl _ h
  · intro h
    exact List.Sorted.rel_get_of_lt hs h

theorem GoodDigits.indexOf_lt_indexOf {d : Str} (hd : GoodDigits d) {c1 c2 : Char}
    (h1 : c1 ∈ d) (h2 : c2 ∈ d) (h : c1 < c2) : d.indexOf c1 < d.indexOf c2 := by
  have e1 := get_indexOf_self h1
  have e2 := get_indexOf_self h2
  have := (sorted_get_lt_iff hd.sorted ⟨d.indexOf c1, indexOf_lt_len h1⟩
    ⟨d.indexOf c2, indexOf_lt_len h2⟩).mp (by rw [e1, e2]; exact h)
  exact this

theorem GoodDigits.lt_of_indexOf_lt {d : Str} (hd : GoodDigits d) {c1 c2 : Char}
    (h1 : c1 ∈ d) (h2 : c2 ∈ d) (h : d.indexOf c1 < d.indexOf c2) : c1 < c2 := by
  have e1 := get_indexOf_self h1
  have e2 := get_indexOf_self h2
  have := (sorted_get_lt_iff hd.sorted ⟨d.indexOf c1, indexOf_lt_len h1⟩
    ⟨d.indexOf c2, indexOf_lt_len h2⟩).mpr h
  rw [e1, e2] at this
  exact this

theorem indexOf_zeroD {d : Str} (h : d ≠ []) : d.indexOf (zeroD d) = 0 := by
  cases d with
  | nil => exact absurd rfl h
  | cons a as => simp [zeroD, List.indexOf_cons_self]

theorem GoodDigits.indexOf_maxD {d : Str} (hd : GoodDigits d) :
    d.indexOf (maxD d) = d.length - 1 := by
  have := indexOf_get_self hd.nodup ⟨d.length - 1, by have := hd.length_pos; omega⟩
  rw [← maxD_eq_get hd.ne_nil] at this
  exact this

theorem GoodDigits.saturated_iff {d : Str} (hd : GoodDigits d) {c : Char} (h : c ∈ d) :
    d.indexOf c + 1 = d.length ↔ c = maxD d := by
  constructor
  · intro hidx
    have := get_indexOf_self h
    rw [maxD_eq_get hd.ne_nil]
    rw [← this]
    congr 1
    apply Fin.ext
    simp
    omega
  · intro he
    subst he
    have := hd.indexOf_maxD
    have := hd.length_pos
    omega

theorem GoodDigits.index_zero_iff {d : Str} (hd : GoodDigits d) {c : Char} (h : c ∈ d) :
    d.indexOf c = 0 ↔ c = zeroD d := by
  constructor
  · intro hidx
    have := get_indexOf_self h
    rw [zeroD_eq_get hd.ne_nil, ← this]
    congr 1
    exact Fin.ext (by simpa using hidx)
  · intro he
    subst he
    exact indexOf_zeroD hd.ne_nil

theorem GoodDigits.le_maxD {d : Str} (hd : GoodDigits d) {c : Char} (h : c ∈ d) :
    c ≤ maxD d := by
  rcases eq_or_ne c (maxD d) with he | hne
  · exact le_of_eq he
  · apply le_of_lt
    apply hd.lt_of_indexOf_lt h (maxD_mem hd.ne_nil)
    rw [hd.indexOf_maxD]
    have h1 := indexOf_lt_len h
    have h2 : d.indexOf c + 1 ≠ d.length := fun hc => hne ((hd.saturated_iff h).mp hc)
    omega

theorem GoodDigits.zeroD_lt_maxD {d : Str} (hd : GoodDigits d) : zeroD d < maxD d := by
  apply hd.lt_of_indexOf_lt (zeroD_mem hd.ne_nil) (maxD_mem hd.ne_nil)
  rw [indexOf_zeroD hd.ne_nil, hd.indexOf_maxD]
  have := hd.1
  omega

theorem GoodDigits.zeroD_le {d : Str} (hd : GoodDigits d) {c : Char} (h : c ∈ d) :
    zeroD d ≤ c := by
  rcases eq_or_ne c (zeroD d) with he | hne
  · exact le_of_eq he.symm
  · apply le_of_lt
    apply hd.lt_of_indexOf_lt (zeroD_mem hd.ne_nil) h
    rw [indexOf_zeroD hd.ne_nil]
    have : d.indexOf c ≠ 0 := fun hc => hne ((hd.index_zero_iff h).mp hc)
    omega

theorem pyIndex_ok {d : Str} {c : Char} (h : c ∈ d) :
    pyIndex d c = .ok (d.indexOf c) := by
  simp [pyIndex, h]

theorem getD_eq_get {d : Str} {i : Nat} (h : i < d.length) (dflt : Char) :
    d.getD i dflt = d.get ⟨i, h⟩ := by
  simp [List.getD_eq_getElem?_getD, List.getElem?_eq_getElem h, List.get_eq_getElem]

/-! Bridging lemmas between `Char` order and code points. -/

theorem charLt_iff (a b : Char) : a < b ↔ a.toNat < b.toNat := Iff.rfl

theorem charLe_iff (a b : Char) : a ≤ b ↔ a.toNat ≤ b.toNat := Iff.rfl

theorem charEq_of_toNat {a b : Char} (h : a.toNat = b.toNat) : a = b :=
  Char.eq_of_val_eq (UInt32.ext h)

theorem toNat_ofNat_small {n : Nat} (h : n < 55296) : (Char.ofNat n).toNat = n := by
  unfold Char.ofNat
  rw [dif_pos (Or.inl h)]
  simp [Char.ofNatAux, Char.toNat, UInt32.toNat, UInt32.ofNatCore, BitVec.toNat_ofNatLt]

/-! Facts about the integer-part codec. -/

theorem gil_lower {h : Char} (h1 : 97 ≤ h.toNat) (h2 : h.toNat ≤ 122) :
    get_integer_length h = .ok (h.toNat - 95) := by
  have hl : 'a' ≤ h ∧ h ≤ 'z' := ⟨(charLe_iff _ _).mpr h1, (charLe_iff _ _).mpr h2⟩
  simp only [get_integer_length, if_pos hl]
  congr 1
  show h.toNat - 97 + 2 = h.toNat - 95
  omega

theorem gil_upper {h : Char} (h1 : 65 ≤ h.toNat) (h2 : h.toNat ≤ 90) :
    get_integer_length h = .ok (92 - h.toNat) := by
  have hnl : ¬ ('a' ≤ h ∧ h ≤ 'z') := by
    intro hc
    have h3 := (charLe_iff _ _).mp hc.1
    have h4 : ('a').toNat = 97 := rfl
    omega
  have hu : 'A' ≤ h ∧ h ≤ 'Z' := ⟨(charLe_iff _ _).mpr h1, (charLe_iff _ _).mpr h2⟩
  simp only [get_integer_length, if_neg hnl, if_pos hu]
  congr 1
  show 90 - h.toNat + 2 = 92 - h.toNat
  omega

theorem gil_cases {h : Char} {L : Nat} (hok : get_integer_length h = .ok L) :
    (97 ≤ h.toNat ∧ h.toNat ≤ 122 ∧ L = h.toNat - 95) ∨
    (65 ≤ h.toNat ∧ h.toNat ≤ 90 ∧ L = 92 - h.toNat) := by
  have hza : ('a').toNat = 97 := rfl
  have hzz : ('z').toNat = 122 := rfl
  have hzA : ('A').toNat = 65 := rfl
  have hzZ : ('Z').toNat = 90 := rfl
  by_cases hl : 'a' ≤ h ∧ h ≤ 'z'
  · left
    have a1 := (charLe_iff _ _).mp hl.1
    have a2 := (charLe_iff _ _).mp hl.2
    rw [hza] at a1
    rw [hzz] at a2
    refine ⟨a1, a2, ?_⟩
    simp only [get_integer_length, if_pos hl, Except.ok.injEq] at hok
    omega
  · by_cases hu : 'A' ≤ h ∧ h ≤ 'Z'
    · right
      have a1 := (charLe_iff _ _).mp hu.1
      have a2 := (charLe_iff _ _).mp hu.2
      rw [hzA] at a1
      rw [hzZ] at a2
      refine ⟨a1, a2, ?_⟩
      simp only [get_integer_length, if_neg hl, if_pos hu, Except.ok.injEq] at hok
      omega
    · simp [get_integer_length, if_neg hl, if_neg hu] at hok

theorem gil_bounds {h : Char} {L : Nat} (hok : get_integer_length h = .ok L) :
    2 ≤ L ∧ L ≤ 27 := by
  rcases gil_cases hok with ⟨a1, a2, a3⟩ | ⟨a1, a2, a3⟩ <;> omega

/-- Validity of an integer part over an alphabet: the encoded length matches
the head and every digit character is drawn from the alphabet. -/
def ValidInt (d s : Str) : Prop :=
  validate_integer s = .ok () ∧ ∀ c ∈ s.tail, c ∈ d

/-- Validity of a fractional part over an alphabet: characters drawn from the
alphabet, no trailing zero digit. -/
def FracGood (d f : Str) : Prop :=
  (∀ c ∈ f, c ∈ d) ∧ f.getLast? ≠ some (zeroD d)

/-- A well-formed key: accepted by `validate_order_key` and with every
character after the head drawn from the alphabet (the head itself is a letter
and need not belong to the alphabet). -/
def GoodKey (d k : Str) : Prop :=
  validate_order_key k d = .ok () ∧ ∀ c ∈ k.tail, c ∈ d

/-- Boolean strict-ascent check, for deciding `GoodDigits` on concrete
alphabets. -/
def ascB : Str → Bool
  | [] => true
  | [_] => true
  | a :: b :: r => (decide (a < b)) && ascB (b :: r)

instance (d : Str) : Decidable (GoodDigits d) :=
  decidable_of_iff (2 ≤ d.length ∧ ascB d = true) (by
    unfold GoodDigits
    have h : ∀ s : Str, ascB s = true ↔ List.Chain' (· < ·) s := by
      intro s
      induction s with
      | nil => simp [ascB]
      | cons a t ih =>
        cases t with
        | nil => simp [ascB]
        | cons b r =>
          rw [List.chain'_cons, ← ih]
          simp [ascB, Bool.and_eq_true, decide_eq_true_iff]
    rw [h])

instance (d s : Str) : Decidable (ValidInt d s) :=
  decidable_of_iff (validate_integer s = .ok () ∧ ∀ c ∈ s.tail, c ∈ d) Iff.rfl

instance (d k : Str) : Decidable (GoodKey d k) :=
  decidable_of_iff (validate_order_key k d = .ok () ∧ ∀ c ∈ k.tail, c ∈ d) Iff.rfl

theorem validate_integer_ok_iff {s : Str} :
    validate_integer s = .ok () ↔
      ∃ h t, s = h :: t ∧ get_integer_length h = .ok s.length := by
  constructor
  · intro hok
    cases s with
    | nil => simp [validate_integer] at hok
    | cons h t =>
      refine ⟨h, t, rfl, ?_⟩
      cases hgil : get_integer_length h with
      | error msg =>
        simp only [validate_integer, hgil] at hok
        exact Except.noConfusion hok
      | ok L =>
        simp only [validate_integer, hgil] at hok
        split at hok
        · simp at hok
        · next hlen =>
          push_neg at hlen
          rw [hlen]
  · rintro ⟨h, t, rfl, hgil⟩
    simp only [validate_integer, hgil]
    simp

theorem ValidInt.pos_length {d s : Str} (h : ValidInt d s) : 0 < s.length := by
  obtain ⟨hh, t, rfl, _⟩ := validate_integer_ok_iff.mp h.1
  simp

theorem ValidInt.two_le_length {d s : Str} (h : ValidInt d s) : 2 ≤ s.length := by
  obtain ⟨hh, t, rfl, hgil⟩ := validate_integer_ok_iff.mp h.1
  exact (gil_bounds hgil).1

theorem get_integer_part_ok_iff {k ip : Str} :
    get_integer_part k = .ok ip ↔
      ∃ h t L, k = h :: t ∧ get_integer_length h = .ok L ∧ L ≤ k.length ∧
        ip = k.take L := by
  constructor
  · intro hok
    cases k with
    | nil => simp [get_integer_part] at hok
    | cons h t =>
      cases hgil : get_integer_length h with
      | error msg =>
        simp only [get_integer_part, hgil] at hok
        exact Except.noConfusion hok
      | ok L =>
        simp only [get_integer_part, hgil] at hok
        split at hok
        · simp at hok
        · next hlen =>
          simp only [Except.ok.injEq] at hok
          exact ⟨h, t, L, rfl, hgil, by omega, hok.symm⟩
  · rintro ⟨h, t, L, rfl, hgil, hle, rfl⟩
    simp only [get_integer_part, hgil]
    rw [if_neg (by omega)]

theorem ValidInt.parts {d s : Str} (hv : ValidInt d s) :
    ∃ h t, s = h :: t ∧ get_integer_length h = .ok (t.length + 1) ∧ ∀ c ∈ t, c ∈ d := by
  obtain ⟨h, t, rfl, hgil⟩ := validate_integer_ok_iff.mp hv.1
  exact ⟨h, t, rfl, by simpa using hgil, by simpa using hv.2⟩

theorem GoodKey.digits_ne_nil {d k : Str} (hk : GoodKey d k) : d ≠ [] := by
  intro he
  subst he
  simp [GoodKey, validate_order_key] at hk


theorem validate_order_key_ok_iff {k : Str} {zero : Char} {rest : Str} :
    validate_order_key k (zero :: rest) = .ok () ↔
      k ≠ sentinel zero ∧ ∃ ip, get_integer_part k = .ok ip ∧
        ¬ (¬ (k.drop ip.length).isEmpty ∧ (k.drop ip.length).getLastD zero = zero) := by
  constructor
  · intro hval
    simp only [validate_order_key] at hval
    split at hval
    · exact Except.noConfusion hval
    · next hsen =>
      refine ⟨hsen, ?_⟩
      cases hgp : get_integer_part k with
      | error msg =>
        rw [hgp] at hval
        exact Except.noConfusion hval
      | ok ip =>
        refine ⟨ip, rfl, ?_⟩
        rw [hgp] at hval
        simp only at hval
        split at hval
        · exact Except.noConfusion hval
        · next hcond => exact hcond
  · rintro ⟨hsen, ip, hgp, hcond⟩
    simp only [validate_order_key, if_neg hsen, hgp]
    simp only [if_neg hcond]

theorem GoodKey.decompose {d k : Str} (hk : GoodKey d k) :
    ∃ ip fp, get_integer_part k = .ok ip ∧ k = ip ++ fp ∧ fp = k.drop ip.length ∧
      ValidInt d ip ∧ FracGood d fp ∧ k ≠ sentinel (zeroD d) := by
  obtain ⟨hval, hchars⟩ := hk
  have hd : d ≠ [] := GoodKey.digits_ne_nil ⟨hval, hchars⟩
  cases d with
  | nil => exact absurd rfl hd
  | cons zero rest =>
    have hzd : zeroD (zero :: rest) = zero := rfl
    obtain ⟨hsen, ip, hgp, hcond⟩ := validate_order_key_ok_iff.mp hval
    obtain ⟨h, t, L, hk2, hgil, hle, hip⟩ := get_integer_part_ok_iff.mp hgp
    have hL2 := gil_bounds hgil
    have hiplen : ip.length = L := by
      rw [hip, List.length_take]
      omega
    have hsplit : k = ip ++ k.drop ip.length := by
      conv_lhs => rw [← List.take_append_drop ip.length k]
      congr 1
      rw [hiplen]
      exact hip.symm
    have hvint : ValidInt (zero :: rest) ip := by
      constructor
      · apply validate_integer_ok_iff.mpr
        refine ⟨h, (k.drop 1).take (L - 1), ?_, ?_⟩
        · rw [hip, hk2]
          cases L with
          | zero => omega
          | succ L2 => simp [List.take_cons]
        · rw [hiplen, hgil]
      · intro c hc
        apply hchars
        have hteq : ip.tail = (k.tail).take (L - 1) := by
          rw [hip, hk2]
          cases L with
          | zero => omega
          | succ L2 => simp [List.take_cons]
        rw [hteq] at hc
        exact List.take_subset _ _ hc
    have hfrac : FracGood (zero :: rest) (k.drop ip.length) := by
      constructor
      · intro c hc
        apply hchars
        have h2 : (k.tail).drop (ip.length - 1) = k.drop ip.length := by
          rw [← List.drop_one, List.drop_drop]
          congr 1
          omega
        rw [← h2] at hc
        exact List.drop_subset _ _ hc
      · rw [hzd]
        intro hlast
        apply hcond
        constructor
        · intro hemp
          rw [List.getLast?_eq_none_iff.mpr (by simpa [List.isEmpty_iff] using hemp)]
            at hlast
          exact Option.noConfusion hlast
        · rw [List.getLastD_eq_getLast?, hlast]
          rfl
    exact ⟨ip, k.drop ip.length, hgp, hsplit, rfl, hvint, hfrac, by rw [hzd]; exact hsen⟩

theorem sentinel_length (zero : Char) : (sentinel zero).length = 27 := by
  simp [sentinel]

theorem get_integer_part_of_validInt {d ip : Str} (hv : ValidInt d ip) :
    get_integer_part ip = .ok ip := by
  obtain ⟨h, t, rfl, hgil, _⟩ := hv.parts
  apply get_integer_part_ok_iff.mpr
  exact ⟨h, t, t.length + 1, rfl, by simpa using hgil, by simp, by simp⟩

theorem get_integer_part_append {d ip : Str} (hv : ValidInt d ip) (m : Str) :
    get_integer_part (ip ++ m) = .ok ip := by
  obtain ⟨h, t, rfl, hgil, _⟩ := hv.parts
  apply get_integer_part_ok_iff.mpr
  refine ⟨h, t ++ m, t.length + 1, by simp, by simpa using hgil, by simp, ?_⟩
  have : t.length + 1 = (h :: t).length := by simp
  rw [this]
  rw [List.take_left]

theorem ne_sentinel_append {d ip : Str} (hv : ValidInt d ip) {m : Str} (hm : m ≠ [])
    (zero : Char) : ip ++ m ≠ sentinel zero := by
  intro he
  have h1 : (ip ++ m).length = 27 := by rw [he, sentinel_length]
  obtain ⟨h, t, rfl, hgil, _⟩ := hv.parts
  have hha : h = 'A' := by
    have : h = ((h :: t) ++ m).headD 'x' := by simp
    rw [he] at this
    simpa [sentinel] using this
  subst hha
  rcases gil_cases hgil with ⟨a1, a2, a3⟩ | ⟨a1, a2, a3⟩
  · have : ('A').toNat = 65 := rfl
    omega
  · have hA : ('A').toNat = 65 := rfl
    have hlen : t.length + 1 = 92 - ('A').toNat := a3
    rw [hA] at hlen
    have : m.length ≠ 0 := by
      intro hm0
      exact hm (List.eq_nil_of_length_eq_zero hm0)
    simp at h1
    omega

theorem validate_of_int_only {d ip : Str} (hv : ValidInt d ip) {zero : Char}
    (hs : ip ≠ sentinel zero) :
    validate_order_key ip (zero :: rest) = .ok () := by
  apply validate_order_key_ok_iff.mpr
  refine ⟨hs, ip, get_integer_part_of_validInt hv, ?_⟩
  simp

theorem goodKey_of_int_only {d ip : Str} (hv : ValidInt d ip) {zero : Char} {rest : Str}
    (hd : d = zero :: rest) (hs : ip ≠ sentinel zero) : GoodKey d ip := by
  subst hd
  refine ⟨validate_of_int_only hv hs, ?_⟩
  obtain ⟨h, t, rfl, _, hmem⟩ := hv.parts
  simpa using hmem

theorem validate_append {d ip m : Str} (hv : ValidInt d ip) (hm : FracGood d m)
    (hmne : m ≠ []) {zero : Char} {rest : Str} (hd : d = zero :: rest) :
    validate_order_key (ip ++ m) (zero :: rest) = .ok () := by
  apply validate_order_key_ok_iff.mpr
  refine ⟨ne_sentinel_append hv hmne zero, ip, get_integer_part_append hv m, ?_⟩
  rw [List.drop_left]
  intro hcond
  have hz : zeroD d = zero := by rw [hd]; rfl
  have := hm.2
  rw [hz] at this
  apply this
  rw [List.getLast?_eq_getLast m hmne]
  rw [List.getLastD_eq_getLast?, List.getLast?_eq_getLast m hmne] at hcond
  simpa using hcond.2

theorem goodKey_append {d ip m : Str} (hv : ValidInt d ip) (hm : FracGood d m)
    (hmne : m ≠ []) {zero : Char} {rest : Str} (hd : d = zero :: rest) :
    GoodKey d (ip ++ m) := by
  subst hd
  refine ⟨validate_append hv hm hmne rfl, ?_⟩
  obtain ⟨h, t, rfl, _, hmem⟩ := hv.parts
  intro c hc
  simp only [List.cons_append, List.tail_cons] at hc
  rcases List.mem_append.mp hc with hc | hc
  · exact hmem c hc
  · exact hm.1 c hc

/-! Inversion and totality for the carry and borrow scans. -/

theorem incDigitsAux_inv {d : Str} {z : Char} :
    ∀ {r : Str} {o : Option Str}, incDigitsAux d z r = .ok o →
    (o = none ∧ ∀ c ∈ r, c ∈ d ∧ d.indexOf c + 1 = d.length) ∨
    (∃ pre c post, r = pre ++ c :: post ∧
      (∀ x ∈ pre, x ∈ d ∧ d.indexOf x + 1 = d.length) ∧
      c ∈ d ∧ d.indexOf c + 1 ≠ d.length ∧
      o = some (List.replicate pre.length z ++ d.getD (d.indexOf c + 1) z :: post)) := by
  intro r
  induction r with
  | nil =>
    intro o h
    left
    simp only [incDigitsAux, Except.ok.injEq] at h
    exact ⟨h.symm, by simp⟩
  | cons c rest ih =>
    intro o h
    simp only [incDigitsAux] at h
    by_cases hc : c ∈ d
    · rw [pyIndex_ok hc] at h
      simp only at h
      by_cases hsat : d.indexOf c + 1 = d.length
      · rw [if_pos hsat] at h
        cases haux : incDigitsAux d z rest with
        | error msg => rw [haux] at h; exact Except.noConfusion h
        | ok o2 =>
          rw [haux] at h
          rcases ih haux with ⟨ho2, hall⟩ | ⟨pre, c2, post, hrest, hpre, hc2, hns, ho2⟩
          · subst ho2
            simp only [Except.ok.injEq] at h
            left
            refine ⟨h.symm, ?_⟩
            intro x hx
            rcases List.mem_cons.mp hx with hx | hx
            · subst hx; exact ⟨hc, hsat⟩
            · exact hall x hx
          · subst ho2
            simp only [Except.ok.injEq] at h
            right
            refine ⟨c :: pre, c2, post, by rw [hrest]; simp, ?_, hc2, hns, ?_⟩
            · intro x hx
              rcases List.mem_cons.mp hx with hx | hx
              · subst hx; exact ⟨hc, hsat⟩
              · exact hpre x hx
            · rw [← h]
              simp [List.replicate_succ]
      · rw [if_neg hsat] at h
        simp only [Except.ok.injEq] at h
        right
        exact ⟨[], c, rest, rfl, by simp, hc, hsat, by rw [← h]; simp⟩
    · simp only [pyIndex, if_neg hc] at h
      exact Except.noConfusion h

theorem incDigitsAux_total {d : Str} {z : Char} :
    ∀ {r : Str}, (∀ c ∈ r, c ∈ d) → ∃ o, incDigitsAux d z r = .ok o := by
  intro r
  induction r with
  | nil => exact fun _ => ⟨none, rfl⟩
  | cons c rest ih =>
    intro h
    have hc : c ∈ d := h c (by simp)
    obtain ⟨o2, ho2⟩ := ih (fun x hx => h x (by simp [hx]))
    simp only [incDigitsAux, pyIndex_ok hc]
    by_cases hsat : d.indexOf c + 1 = d.length
    · rw [if_pos hsat, ho2]
      cases o2 with
      | none => exact ⟨none, rfl⟩
      | some r2 => exact ⟨some (z :: r2), rfl⟩
    · rw [if_neg hsat]
      exact ⟨_, rfl⟩

theorem decDigitsAux_inv {d : Str} {maxd : Char} :
    ∀ {r : Str} {o : Option Str}, decDigitsAux d maxd r = .ok o →
    (o = none ∧ ∀ c ∈ r, c ∈ d ∧ d.indexOf c = 0) ∨
    (∃ pre c post, r = pre ++ c :: post ∧
      (∀ x ∈ pre, x ∈ d ∧ d.indexOf x = 0) ∧
      c ∈ d ∧ d.indexOf c ≠ 0 ∧
      o = some (List.replicate pre.length maxd ++ d.getD (d.indexOf c - 1) maxd :: post)) := by
  intro r
  induction r with
  | nil =>
    intro o h
    left
    simp only [decDigitsAux, Except.ok.injEq] at h
    exact ⟨h.symm, by simp⟩
  | cons c rest ih =>
    intro o h
    simp only [decDigitsAux] at h
    by_cases hc : c ∈ d
    · rw [pyIndex_ok hc] at h
      simp only at h
      by_cases hzero : d.indexOf c = 0
      · rw [if_pos hzero] at h
        cases haux : decDigitsAux d maxd rest with
        | error msg => rw [haux] at h; exact Except.noConfusion h
        | ok o2 =>
          rw [haux] at h
          rcases ih haux with ⟨ho2, hall⟩ | ⟨pre, c2, post, hrest, hpre, hc2, hns, ho2⟩
          · subst ho2
            simp only [Except.ok.injEq] at h
            left
            refine ⟨h.symm, ?_⟩
            intro x hx
            rcases List.mem_cons.mp hx with hx | hx
            · subst hx; exact ⟨hc, hzero⟩
            · exact hall x hx
          · subst ho2
            simp only [Except.ok.injEq] at h
            right
            refine ⟨c :: pre, c2, post, by rw [hrest]; simp, ?_, hc2, hns, ?_⟩
            · intro x hx
              rcases List.mem_cons.mp hx with hx | hx
              · subst hx; exact ⟨hc, hzero⟩
              · exact hpre x hx
            · rw [← h]
              simp [List.replicate_succ]
      · rw [if_neg hzero] at h
        simp only [Except.ok.injEq] at h
        right
        exact ⟨[], c, rest, rfl, by simp, hc, hzero, by rw [← h]; simp⟩
    · simp only [pyIndex, if_neg hc] at h
      exact Except.noConfusion h

theorem decDigitsAux_total {d : Str} {maxd : Char} :
    ∀ {r : Str}, (∀ c ∈ r, c ∈ d) → ∃ o, decDigitsAux d maxd r = .ok o := by
  intro r
  induction r with
  | nil => exact fun _ => ⟨none, rfl⟩
  | cons c rest ih =>
    intro h
    have hc : c ∈ d := h c (by simp)
    obtain ⟨o2, ho2⟩ := ih (fun x hx => h x (by simp [hx]))
    simp only [decDigitsAux, pyIndex_ok hc]
    by_cases hzero : d.indexOf c = 0
    · rw [if_pos hzero, ho2]
      cases o2 with
      | none => exact ⟨none, rfl⟩
      | some r2 => exact ⟨some (maxd :: r2), rfl⟩
    · rw [if_neg hzero]
      exact ⟨_, rfl⟩

theorem incDigitsAux_none {d : Str} {z : Char} :
    ∀ {r : Str}, (∀ c ∈ r, c ∈ d ∧ d.indexOf c + 1 = d.length) →
    incDigitsAux d z r = .ok none := by
  intro r
  induction r with
  | nil => intro _; rfl
  | cons c rest ih =>
    intro h
    have hc := h c (by simp)
    simp only [incDigitsAux, pyIndex_ok hc.1, if_pos hc.2,
      ih (fun x hx => h x (by simp [hx]))]

theorem incDigitsAux_stop {d : Str} {z : Char} {c : Char} {post : Str}
    (hc : c ∈ d) (hns : d.indexOf c + 1 ≠ d.length) :
    ∀ {pre : Str}, (∀ x ∈ pre, x ∈ d ∧ d.indexOf x + 1 = d.length) →
    incDigitsAux d z (pre ++ c :: post) =
      .ok (some (List.replicate pre.length z ++ d.getD (d.indexOf c + 1) z :: post)) := by
  intro pre
  induction pre with
  | nil =>
    intro _
    simp only [List.nil_append, incDigitsAux, pyIndex_ok hc, if_neg hns,
      List.length_nil, List.replicate_zero]
  | cons x pre2 ih =>
    intro h
    have hx := h x (by simp)
    rw [List.cons_append]
    simp only [incDigitsAux, pyIndex_ok hx.1, if_pos hx.2]
    rw [ih (fun y hy => h y (by simp [hy]))]
    simp [List.replicate_succ]

theorem decDigitsAux_none {d : Str} {maxd : Char} :
    ∀ {r : Str}, (∀ c ∈ r, c ∈ d ∧ d.indexOf c = 0) →
    decDigitsAux d maxd r = .ok none := by
  intro r
  induction r with
  | nil => intro _; rfl
  | cons c rest ih =>
    intro h
    have hc := h c (by simp)
    simp only [decDigitsAux, pyIndex_ok hc.1, if_pos hc.2,
      ih (fun x hx => h x (by simp [hx]))]

theorem decDigitsAux_stop {d : Str} {maxd : Char} {c : Char} {post : Str}
    (hc : c ∈ d) (hns : d.indexOf c ≠ 0) :
    ∀ {pre : Str}, (∀ x ∈ pre, x ∈ d ∧ d.indexOf x = 0) →
    decDigitsAux d maxd (pre ++ c :: post) =
      .ok (some (List.replicate pre.length maxd ++ d.getD (d.indexOf c - 1) maxd :: post)) := by
  intro pre
  induction pre with
  | nil =>
    intro _
    simp only [List.nil_append, decDigitsAux, pyIndex_ok hc, if_neg hns,
      List.length_nil, List.replicate_zero]
  | cons x pre2 ih =>
    intro h
    have hx := h x (by simp)
    rw [List.cons_append]
    simp only [decDigitsAux, pyIndex_ok hx.1, if_pos hx.2]
    rw [ih (fun y hy => h y (by simp [hy]))]
    simp [List.replicate_succ]

theorem sentinel_cons_iff {x : Char} {xs : Str} {zero : Char} :
    x :: xs = sentinel zero ↔ x = 'A' ∧ xs = List.replicate 26 zero := by
  simp [sentinel]

/-- Full characterisation of `increment_integer` on a valid integer part over a
well-formed alphabet: it overflows exactly on `'z'` followed by 26 maximum
digits, and otherwise returns a strictly larger valid integer part (larger at
a position inside the original string) that is never the reserved sentinel. -/
theorem increment_integer_spec {d s : Str} (hd : GoodDigits d) (hv : ValidInt d s) :
    (increment_integer s d = .ok none ∧ s = 'z' :: List.replicate 26 (maxD d)) ∨
    (∃ v, increment_integer s d = .ok (some v) ∧ LtAt s v ∧ ValidInt d v ∧
      v ≠ sentinel (zeroD d)) := by
  obtain ⟨zero, rest, hdd⟩ : ∃ zero rest, d = zero :: rest := by
    cases d with
    | nil => exact absurd rfl hd.ne_nil
    | cons a b => exact ⟨a, b, rfl⟩
  obtain ⟨h, t, hs, hgil, hmem⟩ := hv.parts
  have hzd : zeroD d = zero := by rw [hdd]; rfl
  have hzm : zero ∈ d := by rw [← hzd]; exact zeroD_mem hd.ne_nil
  have hvi := hv.1
  obtain ⟨o, ho⟩ := @incDigitsAux_total d zero t.reverse
    (fun c hc => hmem c (List.mem_reverse.mp hc))
  have hrun : increment_integer s d =
      (match o with
       | some r => .ok (some (h :: r.reverse))
       | none =>
         if h = 'Z' then .ok (some ['a', zero])
         else if h = 'z' then .ok none
         else
           let nh := Char.ofNat (h.toNat + 1)
           if 'a' < nh then .ok (some (nh :: (List.replicate t.length zero ++ [zero])))
           else .ok (some (nh :: (List.replicate t.length zero).dropLast))) := by
    subst hs
    conv_lhs => rw [hdd]
    rw [hdd] at ho
    simp only [increment_integer, hvi, ho]
    cases o <;> rfl
  have hca : ('a').toNat = 97 := rfl
  have hcz : ('z').toNat = 122 := rfl
  have hcA : ('A').toNat = 65 := rfl
  have hcZ : ('Z').toNat = 90 := rfl
  rcases incDigitsAux_inv ho with ⟨rfl, hall⟩ | ⟨pre, c, post, hrev, hpre, hcm, hns, rfl⟩
  · -- every digit saturated: carry into the head
    have ht : ∀ c ∈ t, c = maxD d := fun c hc =>
      (hd.saturated_iff (hall c (List.mem_reverse.mpr hc)).1).mp
        (hall c (List.mem_reverse.mpr hc)).2
    have htrep : t = List.replicate t.length (maxD d) := List.eq_replicate_of_mem ht
    rcases gil_cases hgil with ⟨a1, a2, a3⟩ | ⟨a1, a2, a3⟩
    · -- lowercase head
      have hZ : h ≠ 'Z' := by
        intro he
        rw [he, hcZ] at a1
        omega
      by_cases hz : h = 'z'
      · left
        refine ⟨by rw [hrun, if_neg hZ, if_pos hz], ?_⟩
        rw [hs, htrep, hz]
        have : t.length = 26 := by
          rw [hz, hcz] at a3
          omega
        rw [this]
      · right
        have hz2 : h.toNat ≠ 122 := fun he => hz (charEq_of_toNat (by rw [he, hcz]))
        have hnh : (Char.ofNat (h.toNat + 1)).toNat = h.toNat + 1 :=
          toNat_ofNat_small (by omega)
        have halt : 'a' < Char.ofNat (h.toNat + 1) := by
          rw [charLt_iff, hnh, hca]
          omega
        refine ⟨Char.ofNat (h.toNat + 1) :: (List.replicate t.length zero ++ [zero]),
          by rw [hrun, if_neg hZ, if_neg hz, if_pos halt], ?_, ?_, ?_⟩
        · rw [hs]
          exact ltAt_of_head_lt _ _ (by rw [charLt_iff, hnh]; omega)
        · constructor
          · apply validate_integer_ok_iff.mpr
            refine ⟨_, _, rfl, ?_⟩
            have hlen : ((Char.ofNat (h.toNat + 1)) ::
                (List.replicate t.length zero ++ [zero])).length = t.length + 2 := by
              simp
            rw [hlen, gil_lower (by rw [hnh]; omega) (by rw [hnh]; omega), hnh]
            simp only [Except.ok.injEq]
            omega
          · intro x hx
            simp only [List.tail_cons] at hx
            rcases List.mem_append.mp hx with hx | hx
            · rw [List.eq_of_mem_replicate hx]; exact hzm
            · rw [List.mem_singleton.mp hx]; exact hzm
        · intro he
          rw [sentinel_cons_iff] at he
          have := congrArg Char.toNat he.1
          rw [hnh, hcA] at this
          omega
    · -- uppercase head
      have hz : h ≠ 'z' := by
        intro he
        rw [he, hcz] at a2
        omega
      by_cases hZ : h = 'Z'
      · right
        refine ⟨['a', zero], by rw [hrun, if_pos hZ], ?_, ?_, ?_⟩
        · rw [hs, hZ]
          exact ltAt_of_head_lt _ _ (by rw [charLt_iff, hcZ, hca]; omega)
        · constructor
          · apply validate_integer_ok_iff.mpr
            refine ⟨'a', [zero], rfl, ?_⟩
            have h2 : get_integer_length 'a' = .ok 2 := rfl
            rw [h2]
            rfl
          · intro x hx
            simp only [List.tail_cons] at hx
            rw [List.mem_singleton.mp hx]
            exact hzm
        · intro he
          rw [sentinel_cons_iff] at he
          have := congrArg Char.toNat he.1
          rw [hca, hcA] at this
          omega
      · right
        have hZ2 : h.toNat ≠ 90 := fun he => hZ (charEq_of_toNat (by rw [he, hcZ]))
        have hnh : (Char.ofNat (h.toNat + 1)).toNat = h.toNat + 1 :=
          toNat_ofNat_small (by omega)
        have halt : ¬ ('a' < Char.ofNat (h.toNat + 1)) := by
          rw [charLt_iff, hnh, hca]
          omega
        have htl : 2 ≤ t.length := by omega
        refine ⟨Char.ofNat (h.toNat + 1) :: (List.replicate t.length zero).dropLast,
          by rw [hrun, if_neg hZ, if_neg hz, if_neg halt], ?_, ?_, ?_⟩
        · rw [hs]
          exact ltAt_of_head_lt _ _ (by rw [charLt_iff, hnh]; omega)
        · constructor
          · apply validate_integer_ok_iff.mpr
            refine ⟨_, _, rfl, ?_⟩
            have hlen : ((Char.ofNat (h.toNat + 1)) ::
                (List.replicate t.length zero).dropLast).length = t.length := by
              simp only [List.length_cons, List.dropLast_replicate, List.length_replicate]
              omega
            rw [hlen, gil_upper (by rw [hnh]; omega) (by rw [hnh]; omega), hnh]
            simp only [Except.ok.injEq]
            omega
          · intro x hx
            simp only [List.tail_cons, List.dropLast_replicate] at hx
            rw [List.eq_of_mem_replicate hx]
            exact hzm
        · intro he
          rw [sentinel_cons_iff] at he
          have := congrArg Char.toNat he.1
          rw [hnh, hcA] at this
          omega
  · -- carry absorbed inside the digit string
    have hidx : d.indexOf c < d.length := indexOf_lt_len hcm
    have hlt2 : d.indexOf c + 1 < d.length := by omega
    have hgnext : d.getD (d.indexOf c + 1) zero = d.get ⟨d.indexOf c + 1, hlt2⟩ :=
      getD_eq_get hlt2 zero
    have ht2 : t = post.reverse ++ c :: pre.reverse := by
      have := congrArg List.reverse hrev
      simpa using this
    have hclt : c < d.get ⟨d.indexOf c + 1, hlt2⟩ := by
      have hc2 : c = d.get ⟨d.indexOf c, hidx⟩ := (get_indexOf_self hcm).symm
      conv_lhs => rw [hc2]
      rw [sorted_get_lt_iff hd.sorted]
      simp
    have hveq : (List.replicate pre.length zero ++
        d.getD (d.indexOf c + 1) zero :: post).reverse =
        post.reverse ++ d.getD (d.indexOf c + 1) zero :: List.replicate pre.length zero := by
      simp [List.reverse_append, List.reverse_replicate]
    right
    refine ⟨h :: (List.replicate pre.length zero ++
        d.getD (d.indexOf c + 1) zero :: post).reverse, ?_, ?_, ?_, ?_⟩
    · rw [hrun]
    · rw [hveq, hs, ht2, hgnext]
      refine ⟨h :: post.reverse, c, d.get ⟨d.indexOf c + 1, hlt2⟩, pre.reverse,
        List.replicate pre.length zero, ?_, ?_, hclt⟩
      · simp
      · simp
    · rw [hveq]
      constructor
      · apply validate_integer_ok_iff.mpr
        refine ⟨h, post.reverse ++
          d.getD (d.indexOf c + 1) zero :: List.replicate pre.length zero, rfl, ?_⟩
        have hlen : (h :: (post.reverse ++
            d.getD (d.indexOf c + 1) zero :: List.replicate pre.length zero)).length =
            t.length + 1 := by
          simp only [List.length_cons, List.length_append,
            List.length_reverse, List.length_replicate, ht2]
        rw [hlen]
        exact hgil
      · intro x hx
        simp only [List.tail_cons] at hx
        rcases List.mem_append.mp hx with hx | hx
        · exact hmem x (by rw [ht2]; exact List.mem_append.mpr (Or.inl hx))
        · rcases List.mem_cons.mp hx with hx | hx
          · rw [hx, hgnext]
            exact List.get_mem d _ _
          · rw [List.eq_of_mem_replicate hx]
            exact hzm
    · rw [hveq, hzd]
      intro he
      have hgz : d.getD (d.indexOf c + 1) zero ≠ zero := by
        rw [hgnext]
        intro he2
        have : d.indexOf (d.get ⟨d.indexOf c + 1, hlt2⟩) = d.indexOf c + 1 :=
          indexOf_get_self hd.nodup _
        rw [he2] at this
        rw [← hzd, indexOf_zeroD hd.ne_nil] at this
        omega
      rw [sentinel_cons_iff] at he
      have hmem2 : d.getD (d.indexOf c + 1) zero ∈
          post.reverse ++ d.getD (d.indexOf c + 1) zero :: List.replicate pre.length zero := by
        exact List.mem_append.mpr (Or.inr (by simp))
      rw [he.2] at hmem2
      exact hgz (List.eq_of_mem_replicate hmem2)

/-- Full characterisation of `decrement_integer` on a valid integer part over a
well-formed alphabet: it overflows exactly on the reserved sentinel, and
otherwise returns a strictly smaller valid integer part. -/
theorem decrement_integer_spec {d s : Str} (hd : GoodDigits d) (hv : ValidInt d s) :
    (decrement_integer s d = .ok none ∧ s = sentinel (zeroD d)) ∨
    (∃ v, decrement_integer s d = .ok (some v) ∧ LtAt v s ∧ ValidInt d v) := by
  obtain ⟨zero, rest, hdd⟩ : ∃ zero rest, d = zero :: rest := by
    cases d with
    | nil => exact absurd rfl hd.ne_nil
    | cons a b => exact ⟨a, b, rfl⟩
  obtain ⟨h, t, hs, hgil, hmem⟩ := hv.parts
  have hzd : zeroD d = zero := by rw [hdd]; rfl
  have hmm : maxD d ∈ d := maxD_mem hd.ne_nil
  have hvi := hv.1
  obtain ⟨o, ho⟩ := @decDigitsAux_total d (maxD d) t.reverse
    (fun c hc => hmem c (List.mem_reverse.mp hc))
  have hrun : decrement_integer s d =
      (match o with
       | some r => .ok (some (h :: r.reverse))
       | none =>
         if h = 'a' then .ok (some ['Z', maxD d])
         else if h = 'A' then .ok none
         else
           let nh := Char.ofNat (h.toNat - 1)
           if nh < 'Z' then .ok (some (nh :: (List.replicate t.length (maxD d) ++ [maxD d])))
           else .ok (some (nh :: (List.replicate t.length (maxD d)).dropLast))) := by
    subst hs
    simp only [maxD] at ho
    simp only [decrement_integer, hvi, ho]
    cases o <;> rfl
  have hca : ('a').toNat = 97 := rfl
  have hcz : ('z').toNat = 122 := rfl
  have hcA : ('A').toNat = 65 := rfl
  have hcZ : ('Z').toNat = 90 := rfl
  rcases decDigitsAux_inv ho with ⟨rfl, hall⟩ | ⟨pre, c, post, hrev, hpre, hcm, hns, rfl⟩
  · -- every digit is the zero digit: borrow into the head
    have ht : ∀ c ∈ t, c = zeroD d := fun c hc =>
      (hd.index_zero_iff (hall c (List.mem_reverse.mpr hc)).1).mp
        (hall c (List.mem_reverse.mpr hc)).2
    have htrep : t = List.replicate t.length (zeroD d) := List.eq_replicate_of_mem ht
    rcases gil_cases hgil with ⟨a1, a2, a3⟩ | ⟨a1, a2, a3⟩
    · -- lowercase head
      by_cases hA : h = 'a'
      · right
        refine ⟨['Z', maxD d], by rw [hrun, if_pos hA], ?_, ?_⟩
        · rw [hs, hA]
          exact ltAt_of_head_lt _ _ (by rw [charLt_iff, hcZ, hca]; omega)
        · constructor
          · apply validate_integer_ok_iff.mpr
            refine ⟨'Z', [maxD d], rfl, ?_⟩
            have h2 : get_integer_length 'Z' = .ok 2 := rfl
            rw [h2]
            rfl
          · intro x hx
            simp only [List.tail_cons] at hx
            rw [List.mem_singleton.mp hx]
            exact hmm
      · right
        have hA2 : h.toNat ≠ 97 := fun he => hA (charEq_of_toNat (by rw [he, hca]))
        have hAA : h ≠ 'A' := by
          intro he
          rw [he, hcA] at a1
          omega
        have hnh : (Char.ofNat (h.toNat - 1)).toNat = h.toNat - 1 :=
          toNat_ofNat_small (by omega)
        have hnZ : ¬ (Char.ofNat (h.toNat - 1) < 'Z') := by
          rw [charLt_iff, hnh, hcZ]
          omega
        have htl : 2 ≤ t.length := by omega
        refine ⟨Char.ofNat (h.toNat - 1) :: (List.replicate t.length (maxD d)).dropLast,
          by rw [hrun, if_neg hA, if_neg hAA, if_neg hnZ], ?_, ?_⟩
        · rw [hs]
          exact ltAt_of_head_lt _ _ (by rw [charLt_iff, hnh]; omega)
        · constructor
          · apply validate_integer_ok_iff.mpr
            refine ⟨_, _, rfl, ?_⟩
            have hlen : ((Char.ofNat (h.toNat - 1)) ::
                (List.replicate t.length (maxD d)).dropLast).length = t.length := by
              simp only [List.length_cons, List.dropLast_replicate, List.length_replicate]
              omega
            rw [hlen, gil_lower (by rw [hnh]; omega) (by rw [hnh]; omega), hnh]
            simp only [Except.ok.injEq]
            omega
          · intro x hx
            simp only [List.tail_cons, List.dropLast_replicate] at hx
            rw [List.eq_of_mem_replicate hx]
            exact hmm
    · -- uppercase head
      by_cases hA : h = 'A'
      · left
        refine ⟨?_, ?_⟩
        · rw [hrun, if_neg ?_, if_pos hA]
          intro he
          rw [he, hca] at a2
          omega
        · rw [hs, htrep, hA, hzd, sentinel]
          have : t.length = 26 := by
            rw [hA, hcA] at a3
            omega
          rw [this]
      · right
        have hA2 : h.toNat ≠ 65 := fun he => hA (charEq_of_toNat (by rw [he, hcA]))
        have haa : h ≠ 'a' := by
          intro he
          rw [he, hca] at a2
          omega
        have hnh : (Char.ofNat (h.toNat - 1)).toNat = h.toNat - 1 :=
          toNat_ofNat_small (by omega)
        have hnZ : Char.ofNat (h.toNat - 1) < 'Z' := by
          rw [charLt_iff, hnh, hcZ]
          omega
        refine ⟨Char.ofNat (h.toNat - 1) :: (List.replicate t.length (maxD d) ++ [maxD d]),
          by rw [hrun, if_neg haa, if_neg hA, if_pos hnZ], ?_, ?_⟩
        · rw [hs]
          exact ltAt_of_head_lt _ _ (by rw [charLt_iff, hnh]; omega)
        · constructor
          · apply validate_integer_ok_iff.mpr
            refine ⟨_, _, rfl, ?_⟩
            have hlen : ((Char.ofNat (h.toNat - 1)) ::
                (List.replicate t.length (maxD d) ++ [maxD d])).length = t.length + 2 := by
              simp
            rw [hlen, gil_upper (by rw [hnh]; omega) (by rw [hnh]; omega), hnh]
            simp only [Except.ok.injEq]
            omega
          · intro x hx
            simp only [List.tail_cons] at hx
            rcases List.mem_append.mp hx with hx | hx
            · rw [List.eq_of_mem_replicate hx]; exact hmm
            · rw [List.mem_singleton.mp hx]; exact hmm
  · -- borrow absorbed inside the digit string
    have hidx : d.indexOf c < d.length := indexOf_lt_len hcm
    have hlt2 : d.indexOf c - 1 < d.length := by omega
    have hgprev : d.getD (d.indexOf c - 1) (maxD d) = d.get ⟨d.indexOf c - 1, hlt2⟩ :=
      getD_eq_get hlt2 (maxD d)
    have ht2 : t = post.reverse ++ c :: pre.reverse := by
      have := congrArg List.reverse hrev
      simpa using this
    have hclt : d.get ⟨d.indexOf c - 1, hlt2⟩ < c := by
      have hc2 : c = d.get ⟨d.indexOf c, hidx⟩ := (get_indexOf_self hcm).symm
      conv_rhs => rw [hc2]
      rw [sorted_get_lt_iff hd.sorted]
      simp
      omega
    have hveq : (List.replicate pre.length (maxD d) ++
        d.getD (d.indexOf c - 1) (maxD d) :: post).reverse =
        post.reverse ++ d.getD (d.indexOf c - 1) (maxD d) ::
          List.replicate pre.length (maxD d) := by
      simp [List.reverse_append, List.reverse_replicate]
    right
    refine ⟨h :: (List.replicate pre.length (maxD d) ++
        d.getD (d.indexOf c - 1) (maxD d) :: post).reverse, ?_, ?_, ?_⟩
    · rw [hrun]
    · rw [hveq, hs, ht2, hgprev]
      refine ⟨h :: post.reverse, d.get ⟨d.indexOf c - 1, hlt2⟩, c,
        List.replicate pre.length (maxD d), pre.reverse, ?_, ?_, hclt⟩
      · simp
      · simp
    · rw [hveq]
      constructor
      · apply validate_integer_ok_iff.mpr
        refine ⟨h, post.reverse ++
          d.getD (d.indexOf c - 1) (maxD d) :: List.replicate pre.length (maxD d), rfl, ?_⟩
        have hlen : (h :: (post.reverse ++
            d.getD (d.indexOf c - 1) (maxD d) ::
              List.replicate pre.length (maxD d))).length = t.length + 1 := by
          simp only [List.length_cons, List.length_append,
            List.length_reverse, List.length_replicate, ht2]
        rw [hlen]
        exact hgil
      · intro x hx
        simp only [List.tail_cons] at hx
        rcases List.mem_append.mp hx with hx | hx
        · exact hmem x (by rw [ht2]; exact List.mem_append.mpr (Or.inl hx))
        · rcases List.mem_cons.mp hx with hx | hx
          · rw [hx, hgprev]
            exact List.get_mem d _ _
          · rw [List.eq_of_mem_replicate hx]
            exact hmm

/-- Inversion of a successful increment: extracts the structure of the input
and the scan result.  No assumption on the characters of `s` is needed; the
successful run itself certifies what the scan visited. -/
theorem increment_integer_ok_inv {d s : Str} {v : Option Str}
    (h : increment_integer s d = .ok v) :
    ∃ zero rest hh t o, d = zero :: rest ∧ s = hh :: t ∧
      get_integer_length hh = .ok (t.length + 1) ∧
      incDigitsAux d zero t.reverse = .ok o ∧
      ((∃ r, o = some r ∧ v = some (hh :: r.reverse)) ∨
       (o = none ∧
        ((hh = 'Z' ∧ v = some ['a', zero]) ∨
         (hh ≠ 'Z' ∧ hh = 'z' ∧ v = none) ∨
         (hh ≠ 'Z' ∧ hh ≠ 'z' ∧ 'a' < Char.ofNat (hh.toNat + 1) ∧
          v = some (Char.ofNat (hh.toNat + 1) :: (List.replicate t.length zero ++ [zero]))) ∨
         (hh ≠ 'Z' ∧ hh ≠ 'z' ∧ ¬ ('a' < Char.ofNat (hh.toNat + 1)) ∧
          v = some (Char.ofNat (hh.toNat + 1) ::
            (List.replicate t.length zero).dropLast))))) := by
  cases d with
  | nil => exact Except.noConfusion h
  | cons zero rest =>
    simp only [increment_integer] at h
    cases hvi : validate_integer s with
    | error msg => rw [hvi] at h; exact Except.noConfusion h
    | ok u =>
      rw [hvi] at h
      obtain ⟨hh, t, hs, hgil⟩ := validate_integer_ok_iff.mp (by rw [hvi])
      subst hs
      simp only at h
      cases ho : incDigitsAux (zero :: rest) zero t.reverse with
      | error msg => rw [ho] at h; exact Except.noConfusion h
      | ok o =>
        rw [ho] at h
        refine ⟨zero, rest, hh, t, o, rfl, rfl, by simpa using hgil, ho, ?_⟩
        cases o with
        | some r =>
          simp only [Except.ok.injEq] at h
          exact Or.inl ⟨r, rfl, h.symm⟩
        | none =>
          right
          refine ⟨rfl, ?_⟩
          by_cases hZ : hh = 'Z'
          · rw [if_pos hZ] at h
            simp only [Except.ok.injEq] at h
            exact Or.inl ⟨hZ, h.symm⟩
          · rw [if_neg hZ] at h
            by_cases hz : hh = 'z'
            · rw [if_pos hz] at h
              simp only [Except.ok.injEq] at h
              exact Or.inr (Or.inl ⟨hZ, hz, h.symm⟩)
            · rw [if_neg hz] at h
              simp only at h
              by_cases ha : 'a' < Char.ofNat (hh.toNat + 1)
              · rw [if_pos ha] at h
                simp only [Except.ok.injEq] at h
                exact Or.inr (Or.inr (Or.inl ⟨hZ, hz, ha, h.symm⟩))
              · rw [if_neg ha] at h
                simp only [Except.ok.injEq] at h
                exact Or.inr (Or.inr (Or.inr ⟨hZ, hz, ha, h.symm⟩))

theorem decrement_run {d : Str} {hh : Char} {ds : Str}
    (hvv : validate_integer (hh :: ds) = .ok ())
    {o : Option Str} (ho : decDigitsAux d (d.getLastD 'x') ds.reverse = .ok o) :
    decrement_integer (hh :: ds) d =
      (match o with
       | some r => .ok (some (hh :: r.reverse))
       | none =>
         if hh = 'a' then .ok (some ['Z', d.getLastD 'x'])
         else if hh = 'A' then .ok none
         else
           let nh := Char.ofNat (hh.toNat - 1)
           if nh < 'Z' then
             .ok (some (nh :: (List.replicate ds.length (d.getLastD 'x') ++ [d.getLastD 'x'])))
           else .ok (some (nh :: (List.replicate ds.length (d.getLastD 'x')).dropLast))) := by
  simp only [decrement_integer, hvv, ho]
  cases o <;> rfl

/-- Increment followed by decrement restores the original integer part
whenever the increment produced a representable value. -/
theorem inc_then_dec {d s v : Str} (hd : GoodDigits d)
    (h : increment_integer s d = .ok (some v)) :
    decrement_integer v d = .ok (some s) := by
  obtain ⟨zero, rest, hh, t, o, hdd, hs, hgil, ho, hcase⟩ := increment_integer_ok_inv h
  have hzd : zeroD d = zero := by rw [hdd]; rfl
  have hzm : zero ∈ d := by rw [← hzd]; exact zeroD_mem hd.ne_nil
  have hmxm : maxD d ∈ d := maxD_mem hd.ne_nil
  have hmx : d.getLastD 'x' = maxD d := rfl
  have hca : ('a').toNat = 97 := rfl
  have hcz : ('z').toNat = 122 := rfl
  have hcA : ('A').toNat = 65 := rfl
  have hcZ : ('Z').toNat = 90 := rfl
  subst hs
  rcases hcase with ⟨r, ho2, hv⟩ | ⟨ho2, hbr⟩
  · -- the carry was absorbed by a digit
    subst ho2
    rcases incDigitsAux_inv ho with ⟨hnone, _⟩ | ⟨pre, c, post, hrev, hpre, hcm, hns, hr⟩
    · exact Option.noConfusion hnone
    simp only [Option.some.injEq] at hr
    subst hr
    simp only [Option.some.injEq] at hv
    have hidx : d.indexOf c < d.length := indexOf_lt_len hcm
    have hlt2 : d.indexOf c + 1 < d.length := by omega
    have hgnext : d.getD (d.indexOf c + 1) zero = d.get ⟨d.indexOf c + 1, hlt2⟩ :=
      getD_eq_get hlt2 zero
    have htlen : t.length = pre.length + 1 + post.length := by
      have h2 := congrArg List.length hrev
      simp at h2
      omega
    have hvv : validate_integer
        (hh :: (List.replicate pre.length zero ++
          d.getD (d.indexOf c + 1) zero :: post).reverse) = .ok () := by
      apply validate_integer_ok_iff.mpr
      refine ⟨hh, _, rfl, ?_⟩
      have hlen : ((hh :: (List.replicate pre.length zero ++
          d.getD (d.indexOf c + 1) zero :: post).reverse)).length = t.length + 1 := by
        simp [htlen]
        omega
      rw [hlen]
      exact hgil
    have hdsrev : ((List.replicate pre.length zero ++
        d.getD (d.indexOf c + 1) zero :: post).reverse).reverse =
        List.replicate pre.length zero ++ d.getD (d.indexOf c + 1) zero :: post := by
      rw [List.reverse_reverse]
    have hng : d.indexOf (d.getD (d.indexOf c + 1) zero) = d.indexOf c + 1 := by
      rw [hgnext]
      exact indexOf_get_self hd.nodup _
    have hstop : decDigitsAux d (d.getLastD 'x')
        ((List.replicate pre.length zero ++
          d.getD (d.indexOf c + 1) zero :: post).reverse).reverse =
        .ok (some (List.replicate pre.length (d.getLastD 'x') ++
          d.getD (d.indexOf (d.getD (d.indexOf c + 1) zero) - 1) (d.getLastD 'x') :: post)) := by
      rw [hdsrev]
      have := @decDigitsAux_stop d (d.getLastD 'x')
        (d.getD (d.indexOf c + 1) zero) post
        (by rw [hgnext]; exact List.get_mem d _ _)
        (by rw [hng]; omega)
        (List.replicate pre.length zero)
        (fun x hx => by
          rw [List.eq_of_mem_replicate hx]
          exact ⟨hzm, by rw [← hzd]; exact indexOf_zeroD hd.ne_nil⟩)
      simpa using this
    rw [hv]
    rw [decrement_run hvv hstop]
    have hprev : d.getD (d.indexOf (d.getD (d.indexOf c + 1) zero) - 1) (d.getLastD 'x') = c := by
      rw [hng]
      simp only [Nat.add_sub_cancel]
      rw [getD_eq_get hidx]
      exact get_indexOf_self hcm
    simp only [hprev]
    have hpremax : pre.reverse = List.replicate pre.length (maxD d) := by
      have : ∀ x ∈ pre, x = maxD d := fun x hx =>
        (hd.saturated_iff (hpre x hx).1).mp (hpre x hx).2
      have h2 : pre = List.replicate pre.length (maxD d) := List.eq_replicate_of_mem this
      rw [h2, List.reverse_replicate, List.length_replicate]
    have ht2 : t = post.reverse ++ c :: pre.reverse := by
      have := congrArg List.reverse hrev
      simpa using this
    simp only [Except.ok.injEq, Option.some.injEq, List.cons.injEq]
    refine ⟨by trivial, ?_⟩
    rw [ht2, hpremax, hmx]
    simp [List.reverse_append, List.reverse_replicate]
  · -- the head carried
    subst ho2
    rcases incDigitsAux_inv ho with ⟨_, hall⟩ | ⟨pre, c, post, hrev, hpre, hcm, hns, hr⟩
    swap
    · exact Option.noConfusion hr
    have ht : ∀ c ∈ t, c = maxD d := fun c hc =>
      (hd.saturated_iff (hall c (List.mem_reverse.mpr hc)).1).mp
        (hall c (List.mem_reverse.mpr hc)).2
    have htrep : t = List.replicate t.length (maxD d) := List.eq_replicate_of_mem ht
    rcases hbr with ⟨hZ, hv⟩ | ⟨hZ, hz, hv⟩ | ⟨hZ, hz, halt, hv⟩ | ⟨hZ, hz, halt, hv⟩
    · -- head Z jumps to a0
      simp only [Option.some.injEq] at hv
      subst hv
      subst hZ
      have htl : t.length = 1 := by
        rcases gil_cases hgil with ⟨a1, _, _⟩ | ⟨_, _, a3⟩
        · rw [hcZ] at a1; omega
        · rw [hcZ] at a3; omega
      have hvv : validate_integer ['a', zero] = .ok () := by
        apply validate_integer_ok_iff.mpr
        exact ⟨'a', [zero], rfl, rfl⟩
      have hnone : decDigitsAux d (d.getLastD 'x') ([zero] : Str).reverse = .ok none := by
        apply decDigitsAux_none
        intro x hx
        simp only [List.reverse_singleton, List.mem_singleton] at hx
        rw [hx]
        exact ⟨hzm, by rw [← hzd]; exact indexOf_zeroD hd.ne_nil⟩
      rw [decrement_run hvv hnone]
      rw [if_pos rfl]
      have ht1 : t = [maxD d] := by
        conv_lhs => rw [htrep]
        rw [htl]
        rfl
      simp only [ht1, hmx]
    · exact Option.noConfusion hv
    · -- lowercase head advances
      simp only [Option.some.injEq] at hv
      subst hv
      have ha1 : 97 ≤ hh.toNat ∧ hh.toNat ≤ 121 := by
        rcases gil_cases hgil with ⟨a1, a2, _⟩ | ⟨a1, a2, _⟩
        · have : hh.toNat ≠ 122 := fun he => hz (charEq_of_toNat (by rw [he, hcz]))
          omega
        · have hofn : (Char.ofNat (hh.toNat + 1)).toNat = hh.toNat + 1 :=
            toNat_ofNat_small (by omega)
          rw [charLt_iff, hofn, hca] at halt
          omega
      have hnh : (Char.ofNat (hh.toNat + 1)).toNat = hh.toNat + 1 :=
        toNat_ofNat_small (by omega)
      have hrepz : List.replicate t.length zero ++ [zero] =
          List.replicate (t.length + 1) zero := by
        rw [List.replicate_succ']
      rw [hrepz]
      have hvv : validate_integer
          (Char.ofNat (hh.toNat + 1) :: List.replicate (t.length + 1) zero) = .ok () := by
        apply validate_integer_ok_iff.mpr
        refine ⟨_, _, rfl, ?_⟩
        have hlen : ((Char.ofNat (hh.toNat + 1)) ::
            List.replicate (t.length + 1) zero).length = t.length + 2 := by
          simp
        rw [hlen, gil_lower (by rw [hnh]; omega) (by rw [hnh]; omega), hnh]
        rcases gil_cases hgil with ⟨_, _, a3⟩ | ⟨a1, _, _⟩
        · simp only [Except.ok.injEq]
          omega
        · omega
      have hnone : decDigitsAux d (d.getLastD 'x')
          (List.replicate (t.length + 1) zero).reverse = .ok none := by
        apply decDigitsAux_none
        intro x hx
        rw [List.reverse_replicate] at hx
        rw [List.eq_of_mem_replicate hx]
        exact ⟨hzm, by rw [← hzd]; exact indexOf_zeroD hd.ne_nil⟩
      rw [decrement_run hvv hnone]
      have hne1 : Char.ofNat (hh.toNat + 1) ≠ 'a' := by
        intro he
        have := congrArg Char.toNat he
        rw [hnh, hca] at this
        omega
      have hne2 : Char.ofNat (hh.toNat + 1) ≠ 'A' := by
        intro he
        have := congrArg Char.toNat he
        rw [hnh, hcA] at this
        omega
      rw [if_neg hne1, if_neg hne2]
      have hback : Char.ofNat ((Char.ofNat (hh.toNat + 1)).toNat - 1) = hh := by
        rw [hnh]
        simp only [Nat.add_sub_cancel]
        have h5 : (Char.ofNat hh.toNat).toNat = hh.toNat := toNat_ofNat_small (by omega)
        exact charEq_of_toNat h5
      simp only [hback]
      rw [if_neg (by rw [charLt_iff, hcZ]; omega)]
      simp only [Except.ok.injEq, Option.some.injEq, List.cons.injEq]
      refine ⟨by trivial, ?_⟩
      simp only [List.length_replicate, List.dropLast_replicate, Nat.add_sub_cancel]
      rw [hmx]
      exact htrep.symm
    · -- uppercase head advances
      simp only [Option.some.injEq] at hv
      subst hv
      have ha1 : 65 ≤ hh.toNat ∧ hh.toNat ≤ 89 := by
        rcases gil_cases hgil with ⟨a1, a2, _⟩ | ⟨a1, a2, _⟩
        · have hofn : (Char.ofNat (hh.toNat + 1)).toNat = hh.toNat + 1 :=
            toNat_ofNat_small (by omega)
          rw [charLt_iff, hofn, hca] at halt
          omega
        · have : hh.toNat ≠ 90 := fun he => hZ (charEq_of_toNat (by rw [he, hcZ]))
          omega
      have hnh : (Char.ofNat (hh.toNat + 1)).toNat = hh.toNat + 1 :=
        toNat_ofNat_small (by omega)
      have htl : 2 ≤ t.length := by
        rcases gil_cases hgil with ⟨a1, _, _⟩ | ⟨_, _, a3⟩
        · omega
        · omega
      have hdrop : (List.replicate t.length zero).dropLast =
          List.replicate (t.length - 1) zero := List.dropLast_replicate _ _
      rw [hdrop]
      have hvv : validate_integer
          (Char.ofNat (hh.toNat + 1) :: List.replicate (t.length - 1) zero) = .ok () := by
        apply validate_integer_ok_iff.mpr
        refine ⟨_, _, rfl, ?_⟩
        have hlen : ((Char.ofNat (hh.toNat + 1)) ::
            List.replicate (t.length - 1) zero).length = t.length := by
          simp
          omega
        rw [hlen, gil_upper (by rw [hnh]; omega) (by rw [hnh]; omega), hnh]
        rcases gil_cases hgil with ⟨a1, _, _⟩ | ⟨_, _, a3⟩
        · omega
        · simp only [Except.ok.injEq]
          omega
      have hnone : decDigitsAux d (d.getLastD 'x')
          (List.replicate (t.length - 1) zero).reverse = .ok none := by
        apply decDigitsAux_none
        intro x hx
        rw [List.reverse_replicate] at hx
        rw [List.eq_of_mem_replicate hx]
        exact ⟨hzm, by rw [← hzd]; exact indexOf_zeroD hd.ne_nil⟩
      rw [decrement_run hvv hnone]
      have hne1 : Char.ofNat (hh.toNat + 1) ≠ 'a' := by
        intro he
        have := congrArg Char.toNat he
        rw [hnh, hca] at this
        omega
      have hne2 : Char.ofNat (hh.toNat + 1) ≠ 'A' := by
        intro he
        have := congrArg Char.toNat he
        rw [hnh, hcA] at this
        omega
      rw [if_neg hne1, if_neg hne2]
      have hback : Char.ofNat ((Char.ofNat (hh.toNat + 1)).toNat - 1) = hh := by
        rw [hnh]
        simp only [Nat.add_sub_cancel]
        have h5 : (Char.ofNat hh.toNat).toNat = hh.toNat := toNat_ofNat_small (by omega)
        exact charEq_of_toNat h5
      simp only [hback]
      rw [if_pos (by rw [charLt_iff, hcZ]; omega)]
      simp only [Except.ok.injEq, Option.some.injEq, List.cons.injEq]
      refine ⟨by trivial, ?_⟩
      simp only [List.length_replicate]
      rw [hmx]
      rw [← List.replicate_succ']
      have h1 : t.length - 1 + 1 = t.length := by omega
      rw [h1]
      exact htrep.symm

/-! Helper lemmas for the midpoint finder. -/

theorem commonLen_le_left : ∀ (a b : Str), commonLen a b ≤ a.length := by
  intro a
  induction a with
  | nil => intro b; cases b <;> simp [commonLen]
  | cons x xs ih =>
    intro b
    cases b with
    | nil => simp [commonLen]
    | cons y ys =>
      by_cases hxy : x = y
      · simp only [commonLen, if_pos hxy, List.length_cons]
        have := ih ys
        omega
      · simp [commonLen, if_neg hxy]

theorem commonLen_le_right : ∀ (a b : Str), commonLen a b ≤ b.length := by
  intro a
  induction a with
  | nil => intro b; cases b <;> simp [commonLen]
  | cons x xs ih =>
    intro b
    cases b with
    | nil => simp [commonLen]
    | cons y ys =>
      by_cases hxy : x = y
      · simp only [commonLen, if_pos hxy, List.length_cons]
        have := ih ys
        omega
      · simp [commonLen, if_neg hxy]

theorem commonLen_take : ∀ (a b : Str), a.take (commonLen a b) = b.take (commonLen a b) := by
  intro a
  induction a with
  | nil => intro b; cases b <;> simp [commonLen]
  | cons x xs ih =>
    intro b
    cases b with
    | nil => simp [commonLen]
    | cons y ys =>
      by_cases hxy : x = y
      · subst hxy
        have hcl : commonLen (x :: xs) (x :: ys) = commonLen xs ys + 1 := by
          simp [commonLen]
        rw [hcl, List.take_succ_cons, List.take_succ_cons, ih ys]
      · simp [commonLen, if_neg hxy]

theorem commonLen_cons_zero {x y : Char} {xs ys : Str}
    (h : commonLen (x :: xs) (y :: ys) = 0) : x ≠ y := by
  intro he
  simp [commonLen, if_pos he] at h

theorem FracGood.drop {d s : Str} (h : FracGood d s) (k : Nat) : FracGood d (s.drop k) := by
  constructor
  · intro c hc
    exact h.1 c (List.drop_subset _ _ hc)
  · by_cases hk : s.drop k = []
    · rw [hk]
      simp
    · have : s = s.take k ++ s.drop k := (List.take_append_drop k s).symm
      intro hc
      apply h.2
      rw [this, List.getLast?_append_of_ne_nil _ hk]
      exact hc

theorem padRight_length (s : Str) (n : Nat) (z : Char) :
    (padRight s n z).length = max s.length n := by
  simp [padRight]
  omega

theorem padRight_take_le {s : Str} {k : Nat} (h : k ≤ s.length) (n : Nat) (z : Char) :
    (padRight s n z).take k = s.take k := by
  rw [padRight, List.take_append_of_le_length h]

theorem padRight_eq_self {s : Str} {n : Nat} (h : n ≤ s.length) (z : Char) :
    padRight s n z = s := by
  rw [padRight]
  have : n - s.length = 0 := by omega
  rw [this]
  simp

theorem FracGood.getLastD_ne {d s : Str} (h : FracGood d s) (hne : s ≠ []) :
    s.getLastD (zeroD d) ≠ zeroD d := by
  rw [List.getLastD_eq_getLast?, List.getLast?_eq_getLast _ hne]
  intro hc
  simp only [Option.getD_some] at hc
  apply h.2
  rw [List.getLast?_eq_getLast _ hne, hc]

theorem FracGood.nil (d : Str) : FracGood d [] := by
  constructor
  · intro c hc
    simp at hc
  · simp


theorem GoodDigits.get_ne_zeroD {d : Str} (hd : GoodDigits d) (i : Fin d.length)
    (hi : 1 ≤ i.val) : d.get i ≠ zeroD d := by
  intro he
  have h1 := indexOf_get_self hd.nodup i
  rw [he, indexOf_zeroD hd.ne_nil] at h1
  omega

theorem getLast?_cons_of_ne_nil {x : Char} {xs : Str} (h : xs ≠ []) :
    (x :: xs).getLast? = xs.getLast? := by
  rw [show x :: xs = [x] ++ xs from rfl, List.getLast?_append_of_ne_nil _ h]

theorem getLast?_replicate_succ (m : Nat) (z : Char) :
    (List.replicate (m + 1) z).getLast? = some z := by
  rw [List.replicate_succ']
  rw [List.getLast?_append_of_ne_nil _ (by simp)]
  rfl


theorem getLastD_append_replicate_pos {s : Str} {m : Nat} (h : 0 < m) (z x : Char) :
    (s ++ List.replicate m z).getLastD x = z := by
  obtain ⟨m2, rfl⟩ : ∃ m2, m = m2 + 1 := ⟨m - 1, by omega⟩
  rw [List.getLastD_eq_getLast?,
    List.getLast?_append_of_ne_nil _ (List.ne_nil_of_length_pos
      (by rw [List.length_replicate]; omega)),
    getLast?_replicate_succ]
  rfl

theorem padRight_take_ge {s : Str} {k : Nat} (h : s.length ≤ k) (n : Nat) (z : Char) :
    (padRight s n z).take k = s ++ (List.replicate (n - s.length) z).take (k - s.length) := by
  rw [padRight, List.take_append_eq_append_take, List.take_of_length_le h]

theorem findMiddleFuel_spec {d : Str} (hd : GoodDigits d) :
    ∀ n s e, s.length + eMeasure e < n →
    FracGood d s →
    (∀ l2, e = some l2 → l2 ≠ [] ∧ FracGood d l2 ∧ ltB s l2 = true) →
    ∃ m, findMiddleFuel d n s e = .ok m ∧ m ≠ [] ∧ FracGood d m ∧
      ltB s m = true ∧ ∀ l2, e = some l2 → ltB m l2 = true := by
  intro n
  induction n with
  | zero =>
    intro s e hm
    exact absurd hm (Nat.not_lt_zero _)
  | succ n ih =>
    intro s e hm hs he
    obtain ⟨zero, rest, hdd⟩ : ∃ zero rest, d = zero :: rest := by
      cases d with
      | nil => exact absurd rfl hd.ne_nil
      | cons a b => exact ⟨a, b, rfl⟩
    have hzd : zeroD d = zero := by rw [hdd]; rfl
    have hzm : zero ∈ d := by rw [← hzd]; exact zeroD_mem hd.ne_nil
    have hlen2 : 2 ≤ d.length := hd.1
    cases e with
    | none =>
      have hc2n : ¬ (¬ s.isEmpty ∧ s.getLastD zero = zero) := by
        rintro ⟨hne, hlast⟩
        have hsne : s ≠ [] := by
          intro h0
          rw [h0] at hne
          simp at hne
        exact (hs.getLastD_ne hsne) (by rw [hzd]; exact hlast)
      cases s with
      | nil =>
        have hred : findMiddleFuel d (n + 1) [] none =
            (if 0 + 1 < d.length then
               .ok [d.getD (round_half_up 0 d.length) zero]
             else
               match findMiddleFuel d n [] none with
               | .error msg => .error msg
               | .ok m => .ok (d.getD 0 zero :: m)) := by
          rw [hdd]
          simp only [findMiddleFuel, endTruthy, Option.getD_none, Bool.false_eq_true, if_false,
            false_and, or_false, Nat.lt_irrefl, if_neg hc2n, List.drop_nil]
        have h1lt : 0 + 1 < d.length := by omega
        have hjlt : round_half_up 0 d.length < d.length := by
          unfold round_half_up
          omega
        have hj1 : 1 ≤ round_half_up 0 d.length := by
          unfold round_half_up
          omega
        refine ⟨[d.getD (round_half_up 0 d.length) zero], ?_, by simp, ?_, ?_, by simp⟩
        · rw [hred, if_pos h1lt]
        · constructor
          · intro c hc
            rw [List.mem_singleton.mp hc, getD_eq_get hjlt]
            exact List.get_mem d _ _
          · simp only [List.getLast?_singleton, Option.some.injEq]
            rw [getD_eq_get hjlt]
            intro h0
            injection h0 with h0
            exact hd.get_ne_zeroD ⟨_, hjlt⟩ hj1 h0
        · rw [ltB_nil_left]
          simp
      | cons s0 cs =>
        have hs0 : s0 ∈ d := hs.1 s0 (by simp)
        have ha : d.indexOf s0 < d.length := indexOf_lt_len hs0
        have hred : findMiddleFuel d (n + 1) (s0 :: cs) none =
            (if d.indexOf s0 + 1 < d.length then
               .ok [d.getD (round_half_up (d.indexOf s0) d.length) zero]
             else
               match findMiddleFuel d n cs none with
               | .error msg => .error msg
               | .ok m => .ok (d.getD (d.indexOf s0) zero :: m)) := by
          rw [hdd]
          rw [hdd] at hs0
          simp only [findMiddleFuel, endTruthy, Option.getD_none, Bool.false_eq_true, if_false,
            false_and, or_false, Nat.lt_irrefl, if_neg hc2n, pyIndex_ok hs0,
            List.drop_succ_cons, List.drop_zero]
        by_cases hab1 : d.indexOf s0 + 1 < d.length
        · have hjgt : d.indexOf s0 < round_half_up (d.indexOf s0) d.length := by
            unfold round_half_up
            omega
          have hjlt : round_half_up (d.indexOf s0) d.length < d.length := by
            unfold round_half_up
            omega
          refine ⟨[d.getD (round_half_up (d.indexOf s0) d.length) zero],
            ?_, by simp, ?_, ?_, by simp⟩
          · rw [hred, if_pos hab1]
          · constructor
            · intro c hc
              rw [List.mem_singleton.mp hc, getD_eq_get hjlt]
              exact List.get_mem d _ _
            · simp only [List.getLast?_singleton, Option.some.injEq]
              rw [getD_eq_get hjlt]
              have h1j : 1 ≤ round_half_up (d.indexOf s0) d.length := by omega
              intro h0
              injection h0 with h0
              exact hd.get_ne_zeroD ⟨_, hjlt⟩ h1j h0
          · apply ltB_cons_lt
            rw [getD_eq_get hjlt]
            conv_lhs => rw [← get_indexOf_self hs0]
            rw [sorted_get_lt_iff hd.sorted]
            exact hjgt
        · have hmeas : (cs : Str).length + eMeasure none < n := by
            simp only [eMeasure, List.length_cons] at hm ⊢
            omega
          obtain ⟨m2, hm2run, hm2ne, hm2f, hm2lt, _⟩ :=
            ih cs none hmeas (by simpa using hs.drop 1) (by intro l2 h0; cases h0)
          refine ⟨d.getD (d.indexOf s0) zero :: m2, ?_, by simp, ?_, ?_, by simp⟩
          · rw [hred, if_neg hab1, hm2run]
          · constructor
            · intro c hc
              rcases List.mem_cons.mp hc with hc | hc
              · rw [hc, getD_eq_get ha]
                exact List.get_mem d _ _
              · exact hm2f.1 c hc
            · rw [getLast?_cons_of_ne_nil hm2ne]
              exact hm2f.2
          · have hgd : d.getD (d.indexOf s0) zero = s0 := by
              rw [getD_eq_get ha]
              exact get_indexOf_self hs0
            rw [hgd, ltB_cons_same]
            exact hm2lt
    | some l2 =>
      obtain ⟨hlne, hlf, hlt⟩ := he l2 rfl
      obtain ⟨l0, ls, rfl⟩ : ∃ l0 ls, l2 = l0 :: ls := by
        cases l2 with
        | nil => exact absurd rfl hlne
        | cons a b => exact ⟨a, b, rfl⟩
      have hl0 : l0 ∈ d := hlf.1 l0 (by simp)
      have hbl : d.indexOf l0 < d.length := indexOf_lt_len hl0
      have hc2s : ¬ ((¬ s.isEmpty ∧ s.getLastD zero = zero) ∨
          ((l0 :: ls).getLastD zero = zero)) := by
        rintro (⟨hne, hlast⟩ | hlast)
        · have hsne : s ≠ [] := by
            intro h0
            rw [h0] at hne
            simp at hne
          exact (hs.getLastD_ne hsne) (by rw [hzd]; exact hlast)
        · exact (hlf.getLastD_ne hlne) (by rw [hzd]; exact hlast)
      have hred : findMiddleFuel d (n+1) s (some (l0 :: ls)) =
          (if 0 < commonLen (padRight s (l0 :: ls).length zero) (l0 :: ls) then
            match findMiddleFuel d n
                (s.drop (commonLen (padRight s (l0 :: ls).length zero) (l0 :: ls)))
                (some ((l0 :: ls).drop
                  (commonLen (padRight s (l0 :: ls).length zero) (l0 :: ls)))) with
            | .error msg => .error msg
            | .ok m => .ok ((l0 :: ls).take
                (commonLen (padRight s (l0 :: ls).length zero) (l0 :: ls)) ++ m)
          else
            match (match s with | [] => (.ok 0 : Res Nat) | c :: _ => pyIndex d c) with
            | .error msg => .error msg
            | .ok a =>
              match pyIndex d ((l0 :: ls).headD zero) with
              | .error msg => .error msg
              | .ok b =>
                if a + 1 < b then .ok [d.getD (round_half_up a b) zero]
                else
                  if 1 < (l0 :: ls).length then .ok [(l0 :: ls).headD zero]
                  else
                    match findMiddleFuel d n (s.drop 1) none with
                    | .error msg => .error msg
                    | .ok m => .ok (d.getD a zero :: m)) := by
        rw [hdd]
        simp only [findMiddleFuel, endTruthy, Option.getD_some, hlt, Bool.not_true,
          Bool.false_eq_true, if_false, if_true, true_and, if_neg hc2s]
      have hklt : commonLen (padRight s (l0 :: ls).length zero) (l0 :: ls) <
          (l0 :: ls).length := by
        rcases Nat.lt_or_ge (commonLen (padRight s (l0 :: ls).length zero) (l0 :: ls))
          (l0 :: ls).length with hlt2 | hge
        · exact hlt2
        · exfalso
          have hle := commonLen_le_right (padRight s (l0 :: ls).length zero) (l0 :: ls)
          have hkeq : commonLen (padRight s (l0 :: ls).length zero) (l0 :: ls) =
              (l0 :: ls).length := by omega
          have htake := commonLen_take (padRight s (l0 :: ls).length zero) (l0 :: ls)
          rw [hkeq, List.take_length] at htake
          rcases le_or_lt (l0 :: ls).length s.length with hsl | hsl
          · rw [padRight_eq_self hsl] at htake
            have hsplit : s = (l0 :: ls) ++ s.drop (l0 :: ls).length := by
              conv_lhs => rw [← List.take_append_drop (l0 :: ls).length s]
              rw [htake]
            rw [hsplit, ltB_append_self_right] at hlt
            exact Bool.noConfusion hlt
          · have hpadlen : (padRight s (l0 :: ls).length zero).length =
                (l0 :: ls).length := by
              rw [padRight_length]
              omega
            have h1t : List.take (l0 :: ls).length (padRight s (l0 :: ls).length zero) =
                padRight s (l0 :: ls).length zero :=
              List.take_of_length_le (le_of_eq hpadlen)
            have hpad : l0 :: ls = padRight s (l0 :: ls).length zero := htake.symm.trans h1t
            apply (hlf.getLastD_ne hlne)
            rw [hzd]
            conv_lhs => rw [hpad, padRight]
            exact getLastD_append_replicate_pos (by omega) zero zero
      by_cases hk : 0 < commonLen (padRight s (l0 :: ls).length zero) (l0 :: ls)
      · -- common prefix recursion
        have hdropne : (l0 :: ls).drop
            (commonLen (padRight s (l0 :: ls).length zero) (l0 :: ls)) ≠ [] := by
          apply List.ne_nil_of_length_pos
          rw [List.length_drop]
          omega
        have htake := commonLen_take (padRight s (l0 :: ls).length zero) (l0 :: ls)
        have hltdrop : ltB
            (s.drop (commonLen (padRight s (l0 :: ls).length zero) (l0 :: ls)))
            ((l0 :: ls).drop
              (commonLen (padRight s (l0 :: ls).length zero) (l0 :: ls))) = true := by
          rcases le_or_lt
            (commonLen (padRight s (l0 :: ls).length zero) (l0 :: ls)) s.length
            with hks | hks
          · have hstake : s.take (commonLen (padRight s (l0 :: ls).length zero) (l0 :: ls)) =
                (l0 :: ls).take (commonLen (padRight s (l0 :: ls).length zero) (l0 :: ls)) := by
              rw [← padRight_take_le hks (l0 :: ls).length zero]
              exact htake
            have h1 : ltB
                (s.take (commonLen (padRight s (l0 :: ls).length zero) (l0 :: ls)) ++
                  s.drop (commonLen (padRight s (l0 :: ls).length zero) (l0 :: ls)))
                ((l0 :: ls).take (commonLen (padRight s (l0 :: ls).length zero) (l0 :: ls)) ++
                  (l0 :: ls).drop (commonLen (padRight s (l0 :: ls).length zero) (l0 :: ls))) =
                true := by
              rw [List.take_append_drop, List.take_append_drop]
              exact hlt
            rw [hstake, ltB_append_cancel] at h1
            exact h1
          · have hnil : s.drop (commonLen (padRight s (l0 :: ls).length zero) (l0 :: ls)) = [] := by
              apply List.drop_eq_nil_of_le
              omega
            rw [hnil]
            exact ltB_nil_left hdropne
        have hmeas : (s.drop (commonLen (padRight s (l0 :: ls).length zero) (l0 :: ls))).length +
            eMeasure (some ((l0 :: ls).drop
              (commonLen (padRight s (l0 :: ls).length zero) (l0 :: ls)))) < n := by
          simp only [eMeasure, List.length_drop] at hm ⊢
          omega
        obtain ⟨m2, hm2run, hm2ne, hm2f, hm2lt, hm2ltl⟩ :=
          ih _ _ hmeas (hs.drop _)
            (by
              intro l3 h3
              injection h3 with h3
              rw [← h3]
              exact ⟨hdropne, hlf.drop _, hltdrop⟩)
        refine ⟨(l0 :: ls).take (commonLen (padRight s (l0 :: ls).length zero) (l0 :: ls)) ++ m2,
          ?_, ?_, ?_, ?_, ?_⟩
        · rw [hred, if_pos hk, hm2run]
        · intro hcon
          exact hm2ne (List.append_eq_nil.mp hcon).2
        · constructor
          · intro c hc
            rcases List.mem_append.mp hc with hc | hc
            · exact hlf.1 c (List.take_subset _ _ hc)
            · exact hm2f.1 c hc
          · rw [List.getLast?_append_of_ne_nil _ hm2ne]
            exact hm2f.2
        · rcases le_or_lt
            (commonLen (padRight s (l0 :: ls).length zero) (l0 :: ls)) s.length
            with hks | hks
          · have hstake : s.take (commonLen (padRight s (l0 :: ls).length zero) (l0 :: ls)) =
                (l0 :: ls).take (commonLen (padRight s (l0 :: ls).length zero) (l0 :: ls)) := by
              rw [← padRight_take_le hks (l0 :: ls).length zero]
              exact htake
            have h2 : ltB
                (s.take (commonLen (padRight s (l0 :: ls).length zero) (l0 :: ls)) ++
                  s.drop (commonLen (padRight s (l0 :: ls).length zero) (l0 :: ls)))
                ((l0 :: ls).take (commonLen (padRight s (l0 :: ls).length zero) (l0 :: ls)) ++
                  m2) = true := by
              rw [hstake, ltB_append_cancel]
              exact hm2lt
            rw [List.take_append_drop] at h2
            exact h2
          · have hstake2 : (l0 :: ls).take
                (commonLen (padRight s (l0 :: ls).length zero) (l0 :: ls)) =
                s ++ (List.replicate ((l0 :: ls).length - s.length) zero).take
                  (commonLen (padRight s (l0 :: ls).length zero) (l0 :: ls) - s.length) := by
              rw [← htake, padRight_take_ge (le_of_lt hks)]
            have hrne : (List.replicate ((l0 :: ls).length - s.length) zero).take
                (commonLen (padRight s (l0 :: ls).length zero) (l0 :: ls) - s.length) ≠ [] := by
              apply List.ne_nil_of_length_pos
              rw [List.length_take, List.length_replicate]
              omega
            rw [hstake2, List.append_assoc]
            apply ltB_self_append
            intro hcon
            rw [List.append_eq_nil] at hcon
            exact hrne hcon.1
        · intro l3 h3
          injection h3 with h3
          have hsp : l3 =
              (l0 :: ls).take (commonLen (padRight s (l0 :: ls).length zero) (l0 :: ls)) ++
              (l0 :: ls).drop (commonLen (padRight s (l0 :: ls).length zero) (l0 :: ls)) := by
            rw [← h3, List.take_append_drop]
          rw [hsp, ltB_append_cancel]
          exact hm2ltl _ rfl
      · -- no common prefix: single-digit branch
        have hb : pyIndex d ((l0 :: ls).headD zero) = .ok (d.indexOf l0) := by
          simp only [List.headD_cons, pyIndex_ok hl0]
        cases s with
        | nil =>
          have hk0 : commonLen (padRight [] (l0 :: ls).length zero) (l0 :: ls) = 0 := by
            omega
          have hab : 0 < d.indexOf l0 := by
            have hpad : padRight [] (l0 :: ls).length zero =
                zero :: List.replicate ls.length zero := by
              simp [padRight, List.replicate_succ]
            rw [hpad] at hk0
            have hne := commonLen_cons_zero hk0
            have h0 : d.indexOf l0 ≠ 0 := by
              intro h0
              have h1z : l0 = zeroD d := (hd.index_zero_iff hl0).mp h0
              rw [hzd] at h1z
              exact hne h1z.symm
            omega
          have hred2 : findMiddleFuel d (n+1) [] (some (l0 :: ls)) =
              (if 0 + 1 < d.indexOf l0 then
                 .ok [d.getD (round_half_up 0 (d.indexOf l0)) zero]
               else
                 if 1 < (l0 :: ls).length then .ok [(l0 :: ls).headD zero]
                 else
                   match findMiddleFuel d n [] none with
                   | .error msg => .error msg
                   | .ok m => .ok (d.getD 0 zero :: m)) := by
            rw [hred, if_neg hk]
            simp only [hb, List.drop_nil]
          by_cases hab1 : 0 + 1 < d.indexOf l0
          · have hjgt : 1 ≤ round_half_up 0 (d.indexOf l0) := by
              unfold round_half_up
              omega
            have hjlt : round_half_up 0 (d.indexOf l0) < d.indexOf l0 := by
              unfold round_half_up
              omega
            have hjlen : round_half_up 0 (d.indexOf l0) < d.length := by omega
            refine ⟨[d.getD (round_half_up 0 (d.indexOf l0)) zero], ?_, by simp, ?_, ?_, ?_⟩
            · rw [hred2, if_pos hab1]
            · constructor
              · intro c hc
                rw [List.mem_singleton.mp hc, getD_eq_get hjlen]
                exact List.get_mem d _ _
              · simp only [List.getLast?_singleton, Option.some.injEq]
                rw [getD_eq_get hjlen]
                intro h0
                injection h0 with h0
                exact hd.get_ne_zeroD ⟨_, hjlen⟩ hjgt h0
            · rw [ltB_nil_left]
              simp
            · intro l3 h3
              injection h3 with h3
              rw [← h3]
              apply ltB_cons_lt
              rw [getD_eq_get hjlen]
              conv_rhs => rw [← get_indexOf_self hl0]
              rw [sorted_get_lt_iff hd.sorted]
              exact hjlt
          · have hbeq : d.indexOf l0 = 1 := by omega
            by_cases hl1 : 1 < (l0 :: ls).length
            · refine ⟨[(l0 :: ls).headD zero], ?_, by simp, ?_, ?_, ?_⟩
              · rw [hred2, if_neg hab1, if_pos hl1]
              · constructor
                · intro c hc
                  rw [List.mem_singleton.mp hc]
                  simpa using hl0
                · simp only [List.headD_cons, List.getLast?_singleton]
                  intro h0
                  injection h0 with h0
                  have h1 : d.indexOf l0 = 0 := by
                    rw [h0]
                    exact indexOf_zeroD hd.ne_nil
                  omega
              · rw [ltB_nil_left]
                simp
              · intro l3 h3
                injection h3 with h3
                rw [← h3]
                simp only [List.headD_cons]
                rw [ltB_cons_same]
                apply ltB_nil_left
                intro h0
                rw [h0] at hl1
                simp at hl1
            · have hmeas : ([] : Str).length + eMeasure none < n := by
                simp only [eMeasure, List.length_cons] at hm ⊢
                simp only [List.length_nil]
                omega
              obtain ⟨m2, hm2run, hm2ne, hm2f, hm2lt, _⟩ :=
                ih [] none hmeas (FracGood.nil d) (by intro l3 h0; cases h0)
              have hg0 : d.getD 0 zero = zero := by
                rw [getD_eq_get (by omega : 0 < d.length), ← hzd]
                rw [zeroD_eq_get hd.ne_nil]
              refine ⟨d.getD 0 zero :: m2, ?_, by simp, ?_, ?_, ?_⟩
              · rw [hred2, if_neg hab1, if_neg hl1, hm2run]
              · constructor
                · intro c hc
                  rcases List.mem_cons.mp hc with hc | hc
                  · rw [hc, hg0]
                    exact hzm
                  · exact hm2f.1 c hc
                · rw [getLast?_cons_of_ne_nil hm2ne]
                  exact hm2f.2
              · rw [ltB_nil_left]
                simp
              · intro l3 h3
                injection h3 with h3
                rw [← h3]
                apply ltB_cons_lt
                rw [hg0]
                apply hd.lt_of_indexOf_lt hzm hl0
                rw [← hzd, indexOf_zeroD hd.ne_nil, hbeq]
                omega
        | cons s0 cs =>
          have hs0 : s0 ∈ d := hs.1 s0 (by simp)
          have ha : d.indexOf s0 < d.length := indexOf_lt_len hs0
          have hk0 : commonLen (padRight (s0 :: cs) (l0 :: ls).length zero) (l0 :: ls) = 0 := by
            omega
          have hs0l0 : s0 < l0 := by
            have hpad : padRight (s0 :: cs) (l0 :: ls).length zero =
                s0 :: (cs ++ List.replicate ((l0 :: ls).length - (s0 :: cs).length) zero) := by
              simp [padRight]
            rw [hpad] at hk0
            exact head_lt_of_ltB_of_ne hlt (commonLen_cons_zero hk0)
          have hab : d.indexOf s0 < d.indexOf l0 :=
            hd.indexOf_lt_indexOf hs0 hl0 hs0l0
          have hred2 : findMiddleFuel d (n+1) (s0 :: cs) (some (l0 :: ls)) =
              (if d.indexOf s0 + 1 < d.indexOf l0 then
                 .ok [d.getD (round_half_up (d.indexOf s0) (d.indexOf l0)) zero]
               else
                 if 1 < (l0 :: ls).length then .ok [(l0 :: ls).headD zero]
                 else
                   match findMiddleFuel d n cs none with
                   | .error msg => .error msg
                   | .ok m => .ok (d.getD (d.indexOf s0) zero :: m)) := by
            rw [hred, if_neg hk]
            simp only [hb, pyIndex_ok hs0, List.drop_succ_cons, List.drop_zero]
          by_cases hab1 : d.indexOf s0 + 1 < d.indexOf l0
          · have hjgt : d.indexOf s0 < round_half_up (d.indexOf s0) (d.indexOf l0) := by
              unfold round_half_up
              omega
            have hjlt : round_half_up (d.indexOf s0) (d.indexOf l0) < d.indexOf l0 := by
              unfold round_half_up
              omega
            have hjlen : round_half_up (d.indexOf s0) (d.indexOf l0) < d.length := by omega
            refine ⟨[d.getD (round_half_up (d.indexOf s0) (d.indexOf l0)) zero],
              ?_, by simp, ?_, ?_, ?_⟩
            · rw [hred2, if_pos hab1]
            · constructor
              · intro c hc
                rw [List.mem_singleton.mp hc, getD_eq_get hjlen]
                exact List.get_mem d _ _
              · simp only [List.getLast?_singleton, Option.some.injEq]
                rw [getD_eq_get hjlen]
                have h1j : 1 ≤ round_half_up (d.indexOf s0) (d.indexOf l0) := by omega
                intro h0
                injection h0 with h0
                exact hd.get_ne_zeroD ⟨_, hjlen⟩ h1j h0
            · apply ltB_cons_lt
              rw [getD_eq_get hjlen]
              conv_lhs => rw [← get_indexOf_self hs0]
              rw [sorted_get_lt_iff hd.sorted]
              exact hjgt
            · intro l3 h3
              injection h3 with h3
              rw [← h3]
              apply ltB_cons_lt
              rw [getD_eq_get hjlen]
              conv_rhs => rw [← get_indexOf_self hl0]
              rw [sorted_get_lt_iff hd.sorted]
              exact hjlt
          · by_cases hl1 : 1 < (l0 :: ls).length
            · refine ⟨[(l0 :: ls).headD zero], ?_, by simp, ?_, ?_, ?_⟩
              · rw [hred2, if_neg hab1, if_pos hl1]
              · constructor
                · intro c hc
                  rw [List.mem_singleton.mp hc]
                  simpa using hl0
                · simp only [List.headD_cons, List.getLast?_singleton]
                  intro h0
                  injection h0 with h0
                  have h1 : d.indexOf l0 = 0 := by
                    rw [h0]
                    exact indexOf_zeroD hd.ne_nil
                  omega
              · simp only [List.headD_cons]
                exact ltB_cons_lt hs0l0 _ _
              · intro l3 h3
                injection h3 with h3
                rw [← h3]
                simp only [List.headD_cons]
                rw [ltB_cons_same]
                apply ltB_nil_left
                intro h0
                rw [h0] at hl1
                simp at hl1
            · have hmeas : (cs : Str).length + eMeasure none < n := by
                simp only [eMeasure, List.length_cons] at hm ⊢
                omega
              obtain ⟨m2, hm2run, hm2ne, hm2f, hm2lt, _⟩ :=
                ih cs none hmeas (by simpa using hs.drop 1) (by intro l3 h0; cases h0)
              have hgd : d.getD (d.indexOf s0) zero = s0 := by
                rw [getD_eq_get ha]
                exact get_indexOf_self hs0
              refine ⟨d.getD (d.indexOf s0) zero :: m2, ?_, by simp, ?_, ?_, ?_⟩
              · rw [hred2, if_neg hab1, if_neg hl1, hm2run]
              · constructor
                · intro c hc
                  rcases List.mem_cons.mp hc with hc | hc
                  · rw [hc, hgd]
                    exact hs.1 s0 (by simp)
                  · exact hm2f.1 c hc
                · rw [getLast?_cons_of_ne_nil hm2ne]
                  exact hm2f.2
              · rw [hgd, ltB_cons_same]
                exact hm2lt
              · intro l3 h3
                injection h3 with h3
                rw [← h3]
                rw [hgd]
                exact ltB_cons_lt hs0l0 _ _

theorem pyIndex_ne_recursionError (d : Str) (c : Char) :
    pyIndex d c ≠ .error "RecursionError" := by
  unfold pyIndex
  by_cases h : c ∈ d
  · rw [if_pos h]
    intro hc
    cases hc
  · rw [if_neg h]
    intro hc
    injection hc with hc
    exact absurd hc (by decide)

theorem findMiddleFuel_ne_recursionError {d : Str} (h2 : 2 ≤ d.length) :
    ∀ n s e, s.length + eMeasure e < n →
    findMiddleFuel d n s e ≠ .error "RecursionError" := by
  intro n
  induction n with
  | zero =>
    intro s e hm
    exact absurd hm (Nat.not_lt_zero _)
  | succ n ih =>
    intro s e hm
    obtain ⟨zero, rest, hdd⟩ : ∃ zero rest, d = zero :: rest := by
      cases d with
      | nil => simp at h2
      | cons a b => exact ⟨a, b, rfl⟩
    cases e with
    | none =>
      by_cases hc2n : (¬ s.isEmpty ∧ s.getLastD zero = zero)
      · conv_lhs => rw [hdd]
        simp only [findMiddleFuel, endTruthy, Option.getD_none, Bool.false_eq_true, if_false,
          false_and, or_false, Nat.lt_irrefl, if_pos hc2n]
        intro hc
        injection hc with hc
        exact absurd hc (by decide)
      · conv_lhs => rw [hdd]
        simp only [findMiddleFuel, endTruthy, Option.getD_none, Bool.false_eq_true, if_false,
          false_and, or_false, Nat.lt_irrefl, if_neg hc2n]
        cases hsc : (match s with | [] => (.ok 0 : Res Nat) | c :: _ => pyIndex (zero :: rest) c) with
        | error msg =>
          simp only [hsc]
          intro hcon
          injection hcon with hcon
          subst hcon
          cases s with
          | nil => cases hsc
          | cons c cs => exact pyIndex_ne_recursionError _ _ hsc
        | ok a =>
          simp only [hsc]
          by_cases hab : a + 1 < (zero :: rest).length
          · simp only [if_pos hab]
            intro hcon
            cases hcon
          · simp only [if_neg hab]
            cases s with
            | nil =>
              exfalso
              have ha0 : a = 0 := by
                have := hsc
                simp only [Except.ok.injEq] at this
                omega
              rw [hdd] at h2
              simp only [List.length_cons] at h2
              simp only [List.length_cons] at hab
              omega
            | cons c cs =>
              cases hrec : findMiddleFuel (zero :: rest) n ((c :: cs).drop 1) none with
              | error msg =>
                simp only [hrec]
                intro hcon
                injection hcon with hcon
                subst hcon
                have hm2 : ((c :: cs).drop 1).length + eMeasure none < n := by
                  simp only [eMeasure, List.drop_succ_cons, List.drop_zero,
                    List.length_cons] at hm ⊢
                  omega
                rw [hdd] at ih
                exact ih _ _ hm2 hrec
              | ok m =>
                simp only [hrec]
                intro hcon
                cases hcon
    | some l =>
      by_cases hlt : ltB s l = true
      · cases l with
        | nil =>
          rw [ltB_nil_right] at hlt
          cases hlt
        | cons l0 ls =>
          by_cases hc2s : ((¬ s.isEmpty ∧ s.getLastD zero = zero) ∨
              ((l0 :: ls).getLastD zero = zero))
          · conv_lhs => rw [hdd]
            simp only [findMiddleFuel, endTruthy, Option.getD_some, hlt, Bool.not_true,
              Bool.false_eq_true, if_false, if_true, true_and, if_pos hc2s]
            intro hc
            injection hc with hc
            exact absurd hc (by decide)
          · conv_lhs => rw [hdd]
            simp only [findMiddleFuel, endTruthy, Option.getD_some, hlt, Bool.not_true,
              Bool.false_eq_true, if_false, if_true, true_and, if_neg hc2s]
            by_cases hk : 0 < commonLen (padRight s (l0 :: ls).length zero) (l0 :: ls)
            · simp only [if_pos hk]
              cases hrec : findMiddleFuel (zero :: rest) n
                  (s.drop (commonLen (padRight s (l0 :: ls).length zero) (l0 :: ls)))
                  (some ((l0 :: ls).drop
                    (commonLen (padRight s (l0 :: ls).length zero) (l0 :: ls)))) with
              | error msg =>
                simp only [hrec]
                intro hcon
                injection hcon with hcon
                subst hcon
                have hm2 : (s.drop (commonLen (padRight s (l0 :: ls).length zero) (l0 :: ls))).length +
                    eMeasure (some ((l0 :: ls).drop
                      (commonLen (padRight s (l0 :: ls).length zero) (l0 :: ls)))) < n := by
                  have hg : 0 < (l0 :: ls).length := by simp
                  simp only [eMeasure, List.length_drop] at hm ⊢
                  omega
                rw [hdd] at ih
                exact ih _ _ hm2 hrec
              | ok m =>
                simp only [hrec]
                intro hcon
                cases hcon
            · simp only [if_neg hk]
              cases hsc : (match s with | [] => (.ok 0 : Res Nat) | c :: _ => pyIndex (zero :: rest) c) with
              | error msg =>
                simp only [hsc]
                intro hcon
                injection hcon with hcon
                subst hcon
                cases s with
                | nil => cases hsc
                | cons c cs => exact pyIndex_ne_recursionError _ _ hsc
              | ok a =>
                simp only [hsc]
                cases hb : pyIndex (zero :: rest) ((l0 :: ls).headD zero) with
                | error msg =>
                  simp only [hb]
                  intro hcon
                  injection hcon with hcon
                  subst hcon
                  exact pyIndex_ne_recursionError _ _ hb
                | ok b =>
                  simp only [hb]
                  by_cases hab : a + 1 < b
                  · simp only [if_pos hab]
                    intro hcon
                    cases hcon
                  · simp only [if_neg hab]
                    by_cases hl1 : 1 < (l0 :: ls).length
                    · simp only [if_pos hl1]
                      intro hcon
                      cases hcon
                    · simp only [if_neg hl1]
                      cases hrec : findMiddleFuel (zero :: rest) n (s.drop 1) none with
                      | error msg =>
                        simp only [hrec]
                        intro hcon
                        injection hcon with hcon
                        subst hcon
                        have hm2 : (s.drop 1).length + eMeasure none < n := by
                          simp only [eMeasure, List.length_drop, List.length_cons] at hm ⊢
                          omega
                        rw [hdd] at ih
                        exact ih _ _ hm2 hrec
                      | ok m =>
                        simp only [hrec]
                        intro hcon
                        cases hcon
      · conv_lhs => rw [hdd]
        have hlt2 : ltB s l = false := by
          cases hq : ltB s l
          · rfl
          · exact absurd hq hlt
        simp only [findMiddleFuel, hlt2, Bool.not_false, eq_self_iff_true, if_true]
        intro hc
        injection hc with hc
        exact absurd hc (by decide)

theorem ValidInt.head_toNat_le {d s : Str} (hv : ValidInt d s) {h : Char} {t : Str}
    (hs : s = h :: t) : h.toNat ≤ 122 := by
  obtain ⟨h2, t2, heq, hgil, _⟩ := hv.parts
  rw [hs] at heq
  injection heq with he1 he2
  subst he1
  rcases gil_cases hgil with ⟨_, a2, _⟩ | ⟨_, a2, _⟩ <;> omega

theorem intLtAt_of_keyLt {d sip eip sfp efp : Str} (hs : ValidInt d sip)
    (he : ValidInt d eip) (hne : sip ≠ eip)
    (hlt : ltB (sip ++ sfp) (eip ++ efp) = true) : LtAt sip eip := by
  obtain ⟨h1, t1, rfl, hg1, _⟩ := hs.parts
  obtain ⟨h2, t2, rfl, hg2, _⟩ := he.parts
  by_cases hh : h1 = h2
  · subst hh
    have hlen : (h1 :: t1).length = (h1 :: t2).length := by
      rw [hg1] at hg2
      injection hg2 with hg2
    exact ltAt_of_eqlen_ltB hlen hne hlt
  · have hlt2 : ltB (h1 :: (t1 ++ sfp)) (h2 :: (t2 ++ efp)) = true := by
      simpa using hlt
    exact ltAt_of_head_lt _ _ (head_lt_of_ltB_of_ne hlt2 hh)

theorem maxint_not_ltAt {d eip : Str} (hd : GoodDigits d) (he : ValidInt d eip) :
    ¬ LtAt ('z' :: List.replicate 26 (maxD d)) eip := by
  rintro ⟨p, a, b, u, v, hx, hy, hab⟩
  cases p with
  | nil =>
    simp only [List.nil_append] at hx hy
    injection hx with hx1 hx2
    subst hx1
    have hb := he.head_toNat_le hy
    have hz : ('z').toNat = 122 := rfl
    have hlt := (charLt_iff _ _).mp hab
    omega
  | cons p0 p2 =>
    simp only [List.cons_append] at hx hy
    injection hx with hx1 hx2
    have ha : a = maxD d := by
      have hmem : a ∈ List.replicate 26 (maxD d) := by
        rw [hx2]
        exact List.mem_append.mpr (Or.inr (List.mem_cons_self _ _))
      exact List.eq_of_mem_replicate hmem
    have hb : b ∈ d := by
      apply he.2
      rw [hy]
      simp only [List.tail_cons]
      exact List.mem_append.mpr (Or.inr (List.mem_cons_self _ _))
    have hble := (charLe_iff _ _).mp (hd.le_maxD hb)
    rw [ha] at hab
    have hlt := (charLt_iff _ _).mp hab
    omega

theorem handle_end_key_only_spec {d ek : Str} (hd : GoodDigits d) (hk : GoodKey d ek) :
    ∃ r, handle_end_key_only_case ek d = .ok r ∧ ltB r ek = true := by
  obtain ⟨zero, rest, hdd⟩ : ∃ zero rest, d = zero :: rest := by
    cases d with
    | nil => exact absurd rfl hd.ne_nil
    | cons a b => exact ⟨a, b, rfl⟩
  subst hdd
  have hzd : zeroD (zero :: rest) = zero := rfl
  obtain ⟨ip, fp, hgp, hsplit, hfp, hvip, hfrac, hnsen⟩ := hk.decompose
  rw [hzd] at hnsen
  have hred : handle_end_key_only_case ek (zero :: rest) =
      (if ip = sentinel zero then
        match find_middle_key [] (some fp) (zero :: rest) with
        | .error msg => .error msg
        | .ok m => .ok (ip ++ m)
      else if ltB ip ek then .ok ip
      else
        match decrement_integer ip (zero :: rest) with
        | .error msg => .error msg
        | .ok none => .error "Cannot decrement anymore"
        | .ok (some v) => .ok v) := by
    simp only [handle_end_key_only_case, hgp, ← hfp]
  by_cases hsen : ip = sentinel zero
  · have hfpne : fp ≠ [] := by
      intro h0
      apply hnsen
      rw [hsplit, h0, List.append_nil, hsen]
    obtain ⟨m, hmrun, hmne, hmf, hmlt, hmltl⟩ :=
      findMiddleFuel_spec hd _ [] (some fp) (Nat.lt_succ_self _) (FracGood.nil _)
        (by
          intro l2 h2
          injection h2 with h2
          rw [← h2]
          exact ⟨hfpne, hfrac, ltB_nil_left hfpne⟩)
    have hfm : find_middle_key [] (some fp) (zero :: rest) = .ok m := hmrun
    refine ⟨ip ++ m, by rw [hred, if_pos hsen, hfm], ?_⟩
    rw [hsplit, ltB_append_cancel]
    exact hmltl _ rfl
  · by_cases hip : ltB ip ek = true
    · exact ⟨ip, by rw [hred, if_neg hsen, if_pos hip], hip⟩
    · have hfp0 : fp = [] := by
        by_contra h0
        exact hip (by rw [hsplit]; exact ltB_self_append ip h0)
      have hek : ek = ip := by rw [hsplit, hfp0, List.append_nil]
      rcases decrement_integer_spec hd hvip with ⟨hrun0, hsen2⟩ | ⟨v, hrun2, hltat, hvv⟩
      · exfalso
        rw [hzd] at hsen2
        exact hsen hsen2
      · refine ⟨v, by rw [hred, if_neg hsen, if_neg hip, hrun2], ?_⟩
        rw [hek]
        exact hltat.out

theorem handle_start_key_only_spec {d sk : Str} (hd : GoodDigits d) (hk : GoodKey d sk) :
    ∃ r, handle_start_key_only_case sk d = .ok r ∧ ltB sk r = true ∧ GoodKey d r := by
  obtain ⟨zero, rest, hdd⟩ : ∃ zero rest, d = zero :: rest := by
    cases d with
    | nil => exact absurd rfl hd.ne_nil
    | cons a b => exact ⟨a, b, rfl⟩
  subst hdd
  have hzd : zeroD (zero :: rest) = zero := rfl
  obtain ⟨ip, fp, hgp, hsplit, hfp, hvip, hfrac, hnsen⟩ := hk.decompose
  have hred : handle_start_key_only_case sk (zero :: rest) =
      (match increment_integer ip (zero :: rest) with
       | .error msg => .error msg
       | .ok none =>
         match find_middle_key fp none (zero :: rest) with
         | .error msg => .error msg
         | .ok m => .ok (ip ++ m)
       | .ok (some v) => .ok v) := by
    simp only [handle_start_key_only_case, hgp, ← hfp]
  rcases increment_integer_spec hd hvip with ⟨hrun0, _⟩ | ⟨v, hrun2, hltat, hvv, hvns⟩
  · obtain ⟨m, hmrun, hmne, hmf, hmlt, _⟩ :=
      findMiddleFuel_spec hd _ fp none (Nat.lt_succ_self _) hfrac
        (by intro l2 h2; cases h2)
    have hfm : find_middle_key fp none (zero :: rest) = .ok m := hmrun
    refine ⟨ip ++ m, by rw [hred, hrun0, hfm], ?_, ?_⟩
    · rw [hsplit, ltB_append_cancel]
      exact hmlt
    · exact goodKey_append hvip hmf hmne rfl
  · refine ⟨v, by rw [hred, hrun2], ?_, ?_⟩
    · rw [hsplit]
      exact hltat.left_ltB _
    · apply goodKey_of_int_only hvv rfl
      rw [← hzd]
      exact hvns

theorem handle_both_keys_spec {d sk ek : Str} (hd : GoodDigits d) (hks : GoodKey d sk)
    (hke : GoodKey d ek) (hlt : ltB sk ek = true) :
    ∃ r, handle_both_keys_case sk ek d = .ok r ∧ ltB sk r = true ∧ ltB r ek = true ∧
      GoodKey d r := by
  obtain ⟨zero, rest, hdd⟩ : ∃ zero rest, d = zero :: rest := by
    cases d with
    | nil => exact absurd rfl hd.ne_nil
    | cons a b => exact ⟨a, b, rfl⟩
  subst hdd
  have hzd : zeroD (zero :: rest) = zero := rfl
  obtain ⟨sip, sfp, hgps, hsplits, hfps, hvs, hfracs, hnsens⟩ := hks.decompose
  obtain ⟨eip, efp, hgpe, hsplite, hfpe, hve, hfrace, hnsene⟩ := hke.decompose
  have hred : handle_both_keys_case sk ek (zero :: rest) =
      (if sip = eip then
        match find_middle_key sfp (some efp) (zero :: rest) with
        | .error msg => .error msg
        | .ok m => .ok (sip ++ m)
      else
        match increment_integer sip (zero :: rest) with
        | .error msg => .error msg
        | .ok none => .error "Cannot increment anymore"
        | .ok (some inc) =>
          if ltB inc ek then .ok inc
          else
            match find_middle_key sfp none (zero :: rest) with
            | .error msg => .error msg
            | .ok m => .ok (sip ++ m)) := by
    simp only [handle_both_keys_case, hgps, hgpe, ← hfps, ← hfpe]
  by_cases hip : sip = eip
  · have hlt2 := hlt
    rw [hsplits, hsplite, hip, ltB_append_cancel] at hlt2
    have hefpne : efp ≠ [] := by
      intro h0
      rw [h0, ltB_nil_right] at hlt2
      cases hlt2
    obtain ⟨m, hmrun, hmne, hmf, hmlt, hmltl⟩ :=
      findMiddleFuel_spec hd _ sfp (some efp) (Nat.lt_succ_self _) hfracs
        (by
          intro l2 h2
          injection h2 with h2
          rw [← h2]
          exact ⟨hefpne, hfrace, hlt2⟩)
    have hfm : find_middle_key sfp (some efp) (zero :: rest) = .ok m := hmrun
    refine ⟨sip ++ m, by rw [hred, if_pos hip, hfm], ?_, ?_, ?_⟩
    · rw [hsplits, ltB_append_cancel]
      exact hmlt
    · rw [hsplite, ← hip, ltB_append_cancel]
      exact hmltl _ rfl
    · exact goodKey_append hvs hmf hmne rfl
  · have hltat : LtAt sip eip := by
      apply intLtAt_of_keyLt hvs hve hip
      rw [← hsplits, ← hsplite]
      exact hlt
    rcases increment_integer_spec hd hvs with ⟨hrun0, hmax⟩ | ⟨inc, hrun2, hltinc, hvinc, hincns⟩
    · exfalso
      apply maxint_not_ltAt hd hve
      rw [← hmax]
      exact hltat
    · by_cases hlt3 : ltB inc ek = true
      · refine ⟨inc, by rw [hred, if_neg hip, hrun2]; simp only [if_pos hlt3], ?_, hlt3, ?_⟩
        · rw [hsplits]
          exact hltinc.left_ltB _
        · apply goodKey_of_int_only hvinc rfl
          rw [← hzd]
          exact hincns
      · obtain ⟨m, hmrun, hmne, hmf, hmlt, _⟩ :=
          findMiddleFuel_spec hd _ sfp none (Nat.lt_succ_self _) hfracs
            (by intro l2 h2; cases h2)
        have hfm : find_middle_key sfp none (zero :: rest) = .ok m := hmrun
        refine ⟨sip ++ m,
          by rw [hred, if_neg hip, hrun2]; simp only [if_neg hlt3]; rw [hfm], ?_, ?_, ?_⟩
        · rw [hsplits, ltB_append_cancel]
          exact hmlt
        · rw [hsplite]
          exact hltat.append_ltB _ _
        · exact goodKey_append hvs hmf hmne rfl

theorem validInt_a0 {d : Str} (hd : GoodDigits d) : ValidInt d ['a', zeroD d] := by
  constructor
  · apply validate_integer_ok_iff.mpr
    exact ⟨'a', [zeroD d], rfl, rfl⟩
  · intro c hc
    simp only [List.tail_cons, List.mem_singleton] at hc
    rw [hc]
    exact zeroD_mem hd.ne_nil

theorem goodKey_a0 {d : Str} (hd : GoodDigits d) : GoodKey d ['a', zeroD d] := by
  obtain ⟨zero, rest, hdd⟩ : ∃ zero rest, d = zero :: rest := by
    cases d with
    | nil => exact absurd rfl hd.ne_nil
    | cons a b => exact ⟨a, b, rfl⟩
  subst hdd
  apply goodKey_of_int_only (validInt_a0 hd) rfl
  intro hc
  have := congrArg List.length hc
  rw [sentinel_length] at this
  simp at this

theorem generate_key_between_none_none {zero : Char} (rest : Str) :
    generate_key_between none none (zero :: rest) = .ok ['a', zero] := rfl

theorem generate_key_between_both_spec {d sk ek : Str} (hd : GoodDigits d)
    (hks : GoodKey d sk) (hke : GoodKey d ek) (hlt : ltB sk ek = true) :
    ∃ r, generate_key_between (some sk) (some ek) d = .ok r ∧ ltB sk r = true ∧
      ltB r ek = true ∧ GoodKey d r := by
  obtain ⟨zero, rest, hdd⟩ : ∃ zero rest, d = zero :: rest := by
    cases d with
    | nil => exact absurd rfl hd.ne_nil
    | cons a b => exact ⟨a, b, rfl⟩
  subst hdd
  have hred : generate_key_between (some sk) (some ek) (zero :: rest) =
      handle_both_keys_case sk ek (zero :: rest) := by
    simp only [generate_key_between, hks.1, hke.1, hlt, Bool.not_true,
      Bool.false_eq_true, if_false]
  obtain ⟨r, hrun, h1, h2, h3⟩ := handle_both_keys_spec hd hks hke hlt
  exact ⟨r, by rw [hred, hrun], h1, h2, h3⟩

theorem generate_key_between_start_spec {d sk : Str} (hd : GoodDigits d)
    (hks : GoodKey d sk) :
    ∃ r, generate_key_between (some sk) none d = .ok r ∧ ltB sk r = true ∧
      GoodKey d r := by
  obtain ⟨zero, rest, hdd⟩ : ∃ zero rest, d = zero :: rest := by
    cases d with
    | nil => exact absurd rfl hd.ne_nil
    | cons a b => exact ⟨a, b, rfl⟩
  subst hdd
  have hred : generate_key_between (some sk) none (zero :: rest) =
      handle_start_key_only_case sk (zero :: rest) := by
    simp only [generate_key_between, hks.1, Bool.false_eq_true, if_false]
  obtain ⟨r, hrun, h1, h2⟩ := handle_start_key_only_spec hd hks
  exact ⟨r, by rw [hred, hrun], h1, h2⟩

theorem generate_key_between_end_spec {d ek : Str} (hd : GoodDigits d)
    (hke : GoodKey d ek) :
    ∃ r, generate_key_between none (some ek) d = .ok r ∧ ltB r ek = true := by
  obtain ⟨zero, rest, hdd⟩ : ∃ zero rest, d = zero :: rest := by
    cases d with
    | nil => exact absurd rfl hd.ne_nil
    | cons a b => exact ⟨a, b, rfl⟩
  subst hdd
  have hred : generate_key_between none (some ek) (zero :: rest) =
      handle_end_key_only_case ek (zero :: rest) := by
    simp only [generate_key_between, hke.1, Bool.false_eq_true, if_false]
  obtain ⟨r, hrun, h1⟩ := handle_end_key_only_spec hd hke
  exact ⟨r, by rw [hred, hrun], h1⟩

theorem generate_n_keys_spec {d : Str} (hd : GoodDigits d) :
    ∀ n sk ek, GoodKey d sk → GoodKey d ek → ltB sk ek = true →
    ∃ l, generate_n_keys_between (some sk) (some ek) n d = .ok l ∧
      l.length = n ∧
      List.Chain' (fun a b => ltB a b = true) l ∧
      ∀ k ∈ l, ltB sk k = true ∧ ltB k ek = true ∧ GoodKey d k := by
  intro n
  induction n using Nat.strong_induction_on with
  | _ n ih =>
    intro sk ek hks hke hlt
    match n with
    | 0 =>
      refine ⟨[], ?_, rfl, List.chain'_nil, by simp⟩
      simp only [generate_n_keys_between]
    | 1 =>
      obtain ⟨r, hrun, h1, h2, h3⟩ := generate_key_between_both_spec hd hks hke hlt
      refine ⟨[r], ?_, rfl, ?_, ?_⟩
      · simp only [generate_n_keys_between, hrun]
      · simp
      · intro k hk
        rw [List.mem_singleton.mp hk]
        exact ⟨h1, h2, h3⟩
    | m + 2 =>
      obtain ⟨mk, hmkrun, hmk1, hmk2, hmk3⟩ := generate_key_between_both_spec hd hks hke hlt
      obtain ⟨left, hlrun, hllen, hlch, hlmem⟩ :=
        ih ((m + 2) / 2) (by omega) sk mk hks hmk3 hmk1
      obtain ⟨right, hrrun, hrlen, hrch, hrmem⟩ :=
        ih (m + 2 - (m + 2) / 2 - 1) (by omega) mk ek hmk3 hke hmk2
      refine ⟨left ++ mk :: right, ?_, ?_, ?_, ?_⟩
      · simp only [generate_n_keys_between, hmkrun, hlrun, hrrun]
      · simp only [List.length_append, List.length_cons, hllen, hrlen]
        omega
      · rw [List.chain'_append]
        refine ⟨hlch, ?_, ?_⟩
        · rw [List.chain'_cons']
          refine ⟨?_, hrch⟩
          intro y hy
          exact (hrmem y (List.mem_of_mem_head? hy)).1
        · intro x hx y hy
          simp only [List.head?_cons, Option.mem_def, Option.some.injEq] at hy
          rw [← hy]
          exact (hlmem x (List.mem_of_mem_getLast? hx)).2.1
      · intro k hk
        rcases List.mem_append.mp hk with hk | hk
        · obtain ⟨hka, hkb, hkg⟩ := hlmem k hk
          exact ⟨hka, ltB_trans hkb hmk2, hkg⟩
        · rcases List.mem_cons.mp hk with hk | hk
          · rw [hk]
            exact ⟨hmk1, hmk2, hmk3⟩
          · obtain ⟨hka, hkb, hkg⟩ := hrmem k hk
            exact ⟨ltB_trans hmk1 hka, hkb, hkg⟩

theorem utils_get_integer_length_eq (h : Char) :
    Utils.get_integer_length h = get_integer_length h := rfl

theorem utils_validate_integer_eq (s : Str) :
    Utils.validate_integer s = validate_integer s := rfl

theorem utils_get_integer_part_eq (k : Str) :
    Utils.get_integer_part k = get_integer_part k := rfl

theorem utils_validate_order_key_eq (k dd : Str) :
    Utils.validate_order_key k dd = validate_order_key k dd := rfl

theorem utils_incDigitsAux_eq (dd : Str) (z : Char) : ∀ r,
    Utils.incDigitsAux dd z r = incDigitsAux dd z r := by
  intro r
  induction r with
  | nil => rfl
  | cons c rest ih =>
    simp only [Utils.incDigitsAux, incDigitsAux, ih]

theorem utils_decDigitsAux_eq (dd : Str) (z : Char) : ∀ r,
    Utils.decDigitsAux dd z r = decDigitsAux dd z r := by
  intro r
  induction r with
  | nil => rfl
  | cons c rest ih =>
    simp only [Utils.decDigitsAux, decDigitsAux, ih]

theorem utils_increment_integer_eq (s dd : Str) :
    Utils.increment_integer s dd = increment_integer s dd := by
  simp only [Utils.increment_integer, increment_integer, utils_validate_integer_eq,
    utils_incDigitsAux_eq]

theorem utils_decrement_integer_eq (s dd : Str) :
    Utils.decrement_integer s dd = decrement_integer s dd := by
  simp only [Utils.decrement_integer, decrement_integer, utils_validate_integer_eq,
    utils_decDigitsAux_eq]

theorem utils_findMiddleFuel_eq (dd : Str) : ∀ (n : Nat) (s : Str) (e : Option Str),
    Utils.findMiddleFuel dd n s e = findMiddleFuel dd n s e := by
  intro n
  induction n with
  | zero => intro s e; rfl
  | succ n ih =>
    intro s e
    simp only [Utils.findMiddleFuel, findMiddleFuel, ih]

theorem utils_find_middle_key_eq (s : Str) (e : Option Str) (dd : Str) :
    Utils.find_middle_key s e dd = find_middle_key s e dd := by
  simp only [Utils.find_middle_key, find_middle_key, utils_findMiddleFuel_eq]

theorem utils_generate_key_between_eq (sk ek : Option Str) (dd : Str) :
    Utils.generate_key_between sk ek dd = generate_key_between sk ek dd := by
  cases dd with
  | nil => rfl
  | cons z r =>
    cases sk with
    | none =>
      cases ek with
      | none => rfl
      | some e =>
        simp only [Utils.generate_key_between, generate_key_between,
          utils_validate_order_key_eq, utils_get_integer_part_eq,
          utils_find_middle_key_eq, utils_decrement_integer_eq,
          handle_end_key_only_case]
    | some s =>
      cases ek with
      | none =>
        simp only [Utils.generate_key_between, generate_key_between,
          utils_validate_order_key_eq, utils_get_integer_part_eq,
          utils_find_middle_key_eq, utils_increment_integer_eq,
          handle_start_key_only_case]
      | some e =>
        simp only [Utils.generate_key_between, generate_key_between,
          utils_validate_order_key_eq, utils_get_integer_part_eq,
          utils_find_middle_key_eq, utils_increment_integer_eq,
          handle_both_keys_case]

theorem handlers_handle_end_key_only_case_eq (ek dd : Str) :
    Handlers.handle_end_key_only_case ek dd = handle_end_key_only_case ek dd := by
  simp only [Handlers.handle_end_key_only_case, handle_end_key_only_case,
    utils_get_integer_part_eq, utils_find_middle_key_eq, utils_decrement_integer_eq]

theorem handlers_handle_start_key_only_case_eq (sk dd : Str) :
    Handlers.handle_start_key_only_case sk dd = handle_start_key_only_case sk dd := by
  simp only [Handlers.handle_start_key_only_case, handle_start_key_only_case,
    utils_get_integer_part_eq, utils_find_middle_key_eq, utils_increment_integer_eq]

theorem handlers_handle_both_keys_case_eq (sk ek dd : Str) :
    Handlers.handle_both_keys_case sk ek dd = handle_both_keys_case sk ek dd := by
  simp only [Handlers.handle_both_keys_case, handle_both_keys_case,
    utils_get_integer_part_eq, utils_find_middle_key_eq, utils_increment_integer_eq]

theorem handlers_iterGenUp_eq (dd : Str) : ∀ m cur,
    Handlers.iterGenUp dd m cur = iterGenUp dd m cur := by
  intro m
  induction m with
  | zero => intro cur; rfl
  | succ m ih =>
    intro cur
    simp only [Handlers.iterGenUp, iterGenUp, utils_generate_key_between_eq, ih]

theorem handlers_iterGenDown_eq (dd : Str) : ∀ m cur,
    Handlers.iterGenDown dd m cur = iterGenDown dd m cur := by
  intro m
  induction m with
  | zero => intro cur; rfl
  | succ m ih =>
    intro cur
    simp only [Handlers.iterGenDown, iterGenDown, utils_generate_key_between_eq, ih]

theorem handlers_handle_generate_n_keys_with_end_none_eq (sk : Option Str) (n : Nat)
    (dd : Str) :
    Handlers.handle_generate_n_keys_with_end_none sk n dd =
      handle_generate_n_keys_with_end_none sk n dd := by
  simp only [Handlers.handle_generate_n_keys_with_end_none,
    handle_generate_n_keys_with_end_none, utils_generate_key_between_eq,
    handlers_iterGenUp_eq]

theorem handlers_handle_generate_n_keys_with_start_none_eq (ek : Option Str) (n : Nat)
    (dd : Str) :
    Handlers.handle_generate_n_keys_with_start_none ek n dd =
      handle_generate_n_keys_with_start_none ek n dd := by
  simp only [Handlers.handle_generate_n_keys_with_start_none,
    handle_generate_n_keys_with_start_none, utils_generate_key_between_eq,
    handlers_iterGenDown_eq]

/-- C1 counterexample: over the alphabet "10" — two unique symbols, but not
ascending — the key "a1" is accepted by `validate_order_key`, yet
`generate_key_between` with it as the only (start) endpoint returns "a0",
which is not lexicographically greater than the start key. -/
theorem claim_C1_counterexample :
    validate_order_key ['a', '1'] ['1', '0'] = .ok () ∧
    generate_key_between (some ['a', '1']) none ['1', '0'] = .ok ['a', '0'] ∧
    ltB ['a', '1'] ['a', '0'] = false := by
  refine ⟨rfl, rfl, rfl⟩

/-- C1 (amended): for every alphabet of at least 2 symbols that is strictly
ascending in code points, and keys that pass `validate_order_key` and draw
their non-head characters from the alphabet: with both endpoints and
start < end, `generate_key_between` returns a key strictly in between; with
only a start key the result is strictly greater; with only an end key the
result is strictly smaller. -/
theorem claim_C1_amended {d : Str} (hd : GoodDigits d) :
    (∀ sk ek, GoodKey d sk → GoodKey d ek → ltB sk ek = true →
      ∃ r, generate_key_between (some sk) (some ek) d = .ok r ∧
        ltB sk r = true ∧ ltB r ek = true) ∧
    (∀ sk, GoodKey d sk →
      ∃ r, generate_key_between (some sk) none d = .ok r ∧ ltB sk r = true) ∧
    (∀ ek, GoodKey d ek →
      ∃ r, generate_key_between none (some ek) d = .ok r ∧ ltB r ek = true) := by
  refine ⟨?_, ?_, ?_⟩
  · intro sk ek hks hke hlt
    obtain ⟨r, h1, h2, h3, _⟩ := generate_key_between_both_spec hd hks hke hlt
    exact ⟨r, h1, h2, h3⟩
  · intro sk hks
    obtain ⟨r, h1, h2, _⟩ := generate_key_between_start_spec hd hks
    exact ⟨r, h1, h2⟩
  · intro ek hke
    exact generate_key_between_end_spec hd hke

/-- C1 witness: the amended theorem applied to the default alphabet and the
keys "a0" < "a1". -/
theorem claim_C1_witness :
    ∃ r, generate_key_between (some ['a', '0']) (some ['a', '1']) BASE_62_DIGITS = .ok r ∧
      ltB ['a', '0'] r = true ∧ ltB r ['a', '1'] = true :=
  (claim_C1_amended (by decide)).1 ['a', '0'] ['a', '1'] (by decide) (by decide) (by decide)

/-- C2: the violation witnessed: the end key "A" followed by 25 zero digits
and "1" passes `validate_order_key` over the default alphabet, yet
`generate_key_between(None, that key)` returns exactly the reserved sentinel
"A" followed by 26 zero digits, which `validate_order_key` rejects. -/
theorem claim_C2_bug :
    validate_order_key ('A' :: (List.replicate 25 '0' ++ ['1'])) BASE_62_DIGITS = .ok () ∧
    generate_key_between none (some ('A' :: (List.replicate 25 '0' ++ ['1'])))
      BASE_62_DIGITS = .ok (sentinel '0') ∧
    validate_order_key (sentinel '0') BASE_62_DIGITS = .error "Invalid order key" := by
  refine ⟨rfl, by decide, rfl⟩

/-- C4: the concrete scenarios under the default alphabet:
`key_between(None, None) = "a0"`, `key_between("a0", None) = "a1"`,
`key_between(None, "a0") = "Zz"` (a key strictly below "a0", obtained by
decrementing the integer part), and `key_between("a0", "a1")` is "a0"
followed by the digit at index `round_half_up((0 + 62) / 2) = 31` of the
alphabet, the character 'V'. -/
theorem claim_C4 :
    generate_key_between none none BASE_62_DIGITS = .ok ['a', '0'] ∧
    generate_key_between (some ['a', '0']) none BASE_62_DIGITS = .ok ['a', '1'] ∧
    generate_key_between none (some ['a', '0']) BASE_62_DIGITS = .ok ['Z', 'z'] ∧
    ltB ['Z', 'z'] ['a', '0'] = true ∧
    round_half_up 0 62 = 31 ∧
    BASE_62_DIGITS.getD 31 '0' = 'V' ∧
    generate_key_between (some ['a', '0']) (some ['a', '1']) BASE_62_DIGITS =
      .ok ['a', '0', 'V'] := by
  refine ⟨rfl, by decide, by decide, rfl, rfl, rfl, by decide⟩

/-- C7: the midpoint finder terminates for every alphabet of at least two
digits: with the canonical fuel `len(start) + len(end) + 2` the fueled
embedding never returns the out-of-fuel marker, and the same holds for every
fuel above the well-founded measure `len(start) + len(end) + 1` that
decreases at every recursive call. -/
theorem claim_C7 {d : Str} (h2 : 2 ≤ d.length) :
    (∀ s e, find_middle_key s e d ≠ .error "RecursionError") ∧
    (∀ n s e, s.length + eMeasure e < n →
      findMiddleFuel d n s e ≠ .error "RecursionError") := by
  refine ⟨?_, findMiddleFuel_ne_recursionError h2⟩
  intro s e
  exact findMiddleFuel_ne_recursionError h2 _ s e (Nat.lt_succ_self _)

/-- C7 witness: the default alphabet, an empty start key and no end key. -/
theorem claim_C7_witness :
    find_middle_key [] none BASE_62_DIGITS ≠ .error "RecursionError" :=
  (claim_C7 (by decide)).1 [] none

/-- C8: with both keys present, `generate_key_between` fails with the
ordering error exactly when start is not lexicographically below end, and
each present operand's validation error surfaces before any result key is
constructed. -/
theorem claim_C8 {d : Str} (hdne : d ≠ []) :
    (∀ sk ek : Str, validate_order_key sk d = .ok () →
      validate_order_key ek d = .ok () → ltB sk ek = false →
      generate_key_between (some sk) (some ek) d = .error "start >= end") ∧
    (∀ (sk : Str) (ek : Option Str) (msg : String),
      validate_order_key sk d = .error msg →
      generate_key_between (some sk) ek d = .error msg) ∧
    (∀ (sk : Option Str) (ek : Str) (msg : String),
      (∀ s, sk = some s → validate_order_key s d = .ok ()) →
      validate_order_key ek d = .error msg →
      generate_key_between sk (some ek) d = .error msg) := by
  obtain ⟨zero, rest, hdd⟩ : ∃ zero rest, d = zero :: rest := by
    cases d with
    | nil => exact absurd rfl hdne
    | cons a b => exact ⟨a, b, rfl⟩
  subst hdd
  refine ⟨?_, ?_, ?_⟩
  · intro sk ek hvs hve hlt
    simp only [generate_key_between, hvs, hve, hlt, Bool.not_false, if_true]
  · intro sk ek msg hvs
    cases ek with
    | none => simp only [generate_key_between, hvs]
    | some e => simp only [generate_key_between, hvs]
  · intro sk ek msg hsk hve
    cases sk with
    | none => simp only [generate_key_between, hve]
    | some s => simp only [generate_key_between, hsk s rfl, hve]

/-- C8 witness: over the default alphabet, "a0" and "a1" both validate and
"a1" is not below "a0", so the swapped pair raises the ordering error. -/
theorem claim_C8_witness :
    generate_key_between (some ['a', '1']) (some ['a', '0']) BASE_62_DIGITS =
      .error "start >= end" :=
  (claim_C8 (by decide)).1 ['a', '1'] ['a', '0'] (by decide) (by decide) (by decide)

/-- C9 counterexample: both keys pass `validate_order_key` over the default
alphabet ('~' is not an alphabet digit, but validation never checks
membership), start is below end, the integer parts differ, and
`generate_key_between` raises the supposedly unreachable exhaustion error. -/
theorem claim_C9_counterexample :
    validate_order_key (List.replicate 27 'z') BASE_62_DIGITS = .ok () ∧
    validate_order_key ('z' :: List.replicate 26 '~') BASE_62_DIGITS = .ok () ∧
    ltB (List.replicate 27 'z') ('z' :: List.replicate 26 '~') = true ∧
    generate_key_between (some (List.replicate 27 'z'))
      (some ('z' :: List.replicate 26 '~')) BASE_62_DIGITS =
      .error "Cannot increment anymore" := by
  refine ⟨rfl, rfl, rfl, by decide⟩

/-- C9 (amended): when every character after the head of each key is drawn
from the (strictly ascending) alphabet, the exhaustion errors are indeed
unreachable: `generate_key_between` never raises "Cannot decrement anymore"
on an end-only call and never raises "Cannot increment anymore" on a
two-sided call. -/
theorem claim_C9_amended {d : Str} (hd : GoodDigits d) :
    (∀ ek, GoodKey d ek →
      generate_key_between none (some ek) d ≠ .error "Cannot decrement anymore") ∧
    (∀ sk ek, GoodKey d sk → GoodKey d ek →
      generate_key_between (some sk) (some ek) d ≠ .error "Cannot increment anymore") := by
  constructor
  · intro ek hke
    obtain ⟨r, hrun, _⟩ := generate_key_between_end_spec hd hke
    rw [hrun]
    intro hc
    cases hc
  · intro sk ek hks hke
    by_cases hlt : ltB sk ek = true
    · obtain ⟨r, hrun, _⟩ := generate_key_between_both_spec hd hks hke hlt
      rw [hrun]
      intro hc
      cases hc
    · obtain ⟨zero, rest, hdd⟩ : ∃ zero rest, d = zero :: rest := by
        cases d with
        | nil => exact absurd rfl hd.ne_nil
        | cons a b => exact ⟨a, b, rfl⟩
      subst hdd
      have hlt2 : ltB sk ek = false := by
        cases hq : ltB sk ek
        · rfl
        · exact absurd hq hlt
      have : generate_key_between (some sk) (some ek) (zero :: rest) =
          .error "start >= end" := by
        simp only [generate_key_between, hks.1, hke.1, hlt2, Bool.not_false, if_true]
      rw [this]
      intro hc
      injection hc with hc
      exact absurd hc (by decide)

/-- C9 witness: the amended theorem at the default alphabet with end key
"a1" (end-only case) and the pair "a0" < "a1" (two-sided case). -/
theorem claim_C9_witness :
    generate_key_between none (some ['a', '1']) BASE_62_DIGITS ≠
      .error "Cannot decrement anymore" :=
  (claim_C9_amended (by decide)).1 ['a', '1'] (by decide)

/-- C10: each of the five handler functions duplicated in src/handlers.py
agrees with the same-named function of src/fractional_indexing.py on every
input, returning the same key, list or error (`generate_key_between`, which
handlers.py imports from utils and which is modelled from the spec, is
proven pointwise equal to the one of src/fractional_indexing.py along the
way). -/
theorem claim_C10 :
    (∀ ek dd, Handlers.handle_end_key_only_case ek dd =
      handle_end_key_only_case ek dd) ∧
    (∀ sk dd, Handlers.handle_start_key_only_case sk dd =
      handle_start_key_only_case sk dd) ∧
    (∀ sk ek dd, Handlers.handle_both_keys_case sk ek dd =
      handle_both_keys_case sk ek dd) ∧
    (∀ sk n dd, Handlers.handle_generate_n_keys_with_end_none sk n dd =
      handle_generate_n_keys_with_end_none sk n dd) ∧
    (∀ ek n dd, Handlers.handle_generate_n_keys_with_start_none ek n dd =
      handle_generate_n_keys_with_start_none ek n dd) :=
  ⟨handlers_handle_end_key_only_case_eq, handlers_handle_start_key_only_case_eq,
    handlers_handle_both_keys_case_eq, handlers_handle_generate_n_keys_with_end_none_eq,
    handlers_handle_generate_n_keys_with_start_none_eq⟩

/-- C5: over the default alphabet, incrementing a valid integer part to a
non-overflow value and then decrementing returns the original; and the two
overflow boundaries — increment of 'z' with 26 maximum digits, decrement of
'A' with 26 zero digits — return the overflow marker, not a wrapped value. -/
theorem claim_C5 :
    (∀ x v : Str, ValidInt BASE_62_DIGITS x →
      increment_integer x BASE_62_DIGITS = .ok (some v) →
      decrement_integer v BASE_62_DIGITS = .ok (some x)) ∧
    increment_integer ('z' :: List.replicate 26 'z') BASE_62_DIGITS = .ok none ∧
    decrement_integer ('A' :: List.replicate 26 '0') BASE_62_DIGITS = .ok none := by
  refine ⟨?_, by decide, by decide⟩
  intro x v _ h
  exact inc_then_dec (by decide) h

/-- C5 witness: increment "a0" to "a1", decrement back to "a0". -/
theorem claim_C5_witness :
    decrement_integer ['a', '1'] BASE_62_DIGITS = .ok (some ['a', '0']) :=
  claim_C5.1 ['a', '0'] ['a', '1'] (by decide) (by decide)

/-- C3: for keys a < b valid over a good alphabet and any n,
`generate_n_keys_between(a, b, n)` returns exactly n keys, strictly
increasing, each strictly between a and b; `generate_key_between` succeeds
on every adjacent pair of the result; and n = 0 yields the empty list. -/
theorem claim_C3 {d sk ek : Str} (hd : GoodDigits d) (hks : GoodKey d sk)
    (hke : GoodKey d ek) (hlt : ltB sk ek = true) (n : Nat) :
    generate_n_keys_between (some sk) (some ek) 0 d = .ok [] ∧
    ∃ l, generate_n_keys_between (some sk) (some ek) n d = .ok l ∧
      l.length = n ∧
      List.Chain' (fun a b => ltB a b = true) l ∧
      (∀ k ∈ l, ltB sk k = true ∧ ltB k ek = true) ∧
      ∀ (i : Nat) (h1 : i < l.length) (h2 : i + 1 < l.length),
        ∃ r, generate_key_between (some (l.get ⟨i, h1⟩)) (some (l.get ⟨i + 1, h2⟩)) d =
          .ok r := by
  obtain ⟨l, hrun, hlen, hch, hmem⟩ := generate_n_keys_spec hd n sk ek hks hke hlt
  refine ⟨by simp only [generate_n_keys_between], l, hrun, hlen, hch, ?_, ?_⟩
  · intro k hk
    obtain ⟨h1, h2, _⟩ := hmem k hk
    exact ⟨h1, h2⟩
  · intro i h1 h2
    obtain ⟨_, _, hg1⟩ := hmem _ (List.get_mem l i h1)
    obtain ⟨_, _, hg2⟩ := hmem _ (List.get_mem l (i + 1) h2)
    have hadj : ltB (l.get ⟨i, h1⟩) (l.get ⟨i + 1, h2⟩) = true :=
      List.chain'_iff_get.mp hch i (by omega)
    obtain ⟨r, hr, _⟩ := generate_key_between_both_spec hd hg1 hg2 hadj
    exact ⟨r, hr⟩

/-- C3 witness: two keys between "a0" and "a1" over the default alphabet. -/
theorem claim_C3_witness :
    ∃ l, generate_n_keys_between (some ['a', '0']) (some ['a', '1']) 2 BASE_62_DIGITS =
      .ok l ∧ l.length = 2 := by
  obtain ⟨_, l, h1, h2, _⟩ :=
    @claim_C3 BASE_62_DIGITS ['a', '0'] ['a', '1'] (by decide) (by decide) (by decide)
      (by decide) 2
  exact ⟨l, h1, h2⟩

/-- C6: for a valid integer part whose digits all saturate under the scan:
increment with head 'Z' yields 'a' plus one zero digit, with head 'z' the
overflow marker, and with any other head a value whose head is the next
character and whose length — one digit appended or the last digit dropped —
matches the new head's declared integer length; decrement (all digits at the
zero digit) mirrors this: head 'a' yields 'Z' plus one maximum digit, head
'A' the overflow marker, any other head retreats by one character with the
inverse length adjustment. -/
theorem claim_C6 {d : Str} (hd : GoodDigits d) {h : Char} {t : Str}
    (hv : ValidInt d (h :: t)) :
    ((∀ c ∈ t, c = maxD d) →
      (h = 'Z' → increment_integer (h :: t) d = .ok (some ['a', zeroD d])) ∧
      (h = 'z' → increment_integer (h :: t) d = .ok none) ∧
      (h ≠ 'Z' → h ≠ 'z' →
        ∃ v, increment_integer (h :: t) d = .ok (some v) ∧
          v.head? = some (Char.ofNat (h.toNat + 1)) ∧
          (Char.ofNat (h.toNat + 1)).toNat = h.toNat + 1 ∧
          get_integer_length (Char.ofNat (h.toNat + 1)) = .ok v.length ∧
          (v.length = (h :: t).length + 1 ∨ v.length + 1 = (h :: t).length))) ∧
    ((∀ c ∈ t, c = zeroD d) →
      (h = 'a' → decrement_integer (h :: t) d = .ok (some ['Z', maxD d])) ∧
      (h = 'A' → decrement_integer (h :: t) d = .ok none) ∧
      (h ≠ 'a' → h ≠ 'A' →
        ∃ v, decrement_integer (h :: t) d = .ok (some v) ∧
          v.head? = some (Char.ofNat (h.toNat - 1)) ∧
          (Char.ofNat (h.toNat - 1)).toNat = h.toNat - 1 ∧
          get_integer_length (Char.ofNat (h.toNat - 1)) = .ok v.length ∧
          (v.length = (h :: t).length + 1 ∨ v.length + 1 = (h :: t).length))) := by
  obtain ⟨zero, rest, hdd⟩ : ∃ zero rest, d = zero :: rest := by
    cases d with
    | nil => exact absurd rfl hd.ne_nil
    | cons a b => exact ⟨a, b, rfl⟩
  subst hdd
  have hzd : zeroD (zero :: rest) = zero := rfl
  have hvi : validate_integer (h :: t) = .ok () := hv.1
  have hgil : get_integer_length h = .ok (t.length + 1) := by
    obtain ⟨h2, t2, heq, hg, _⟩ := hv.parts
    injection heq with he1 he2
    subst he1
    subst he2
    exact hg
  have hca : ('a').toNat = 97 := rfl
  have hcz : ('z').toNat = 122 := rfl
  have hcA : ('A').toNat = 65 := rfl
  have hcZ : ('Z').toNat = 90 := rfl
  constructor
  · -- increment, all digits at the maximum
    intro hsat
    have hscan : incDigitsAux (zero :: rest) zero t.reverse = .ok none := by
      apply incDigitsAux_none
      intro c hc
      rw [hsat c (List.mem_reverse.mp hc)]
      refine ⟨maxD_mem hd.ne_nil, ?_⟩
      have h1 := hd.indexOf_maxD
      have h2 := hd.length_pos
      omega
    have hrun : increment_integer (h :: t) (zero :: rest) =
        (if h = 'Z' then .ok (some ['a', zero])
         else if h = 'z' then .ok none
         else
           if 'a' < Char.ofNat (h.toNat + 1) then
             .ok (some (Char.ofNat (h.toNat + 1) ::
               (List.replicate t.length zero ++ [zero])))
           else
             .ok (some (Char.ofNat (h.toNat + 1) ::
               (List.replicate t.length zero).dropLast))) := by
      simp only [increment_integer, hvi, hscan]
    refine ⟨?_, ?_, ?_⟩
    · intro hZ
      rw [hrun, if_pos hZ, hzd]
    · intro hz
      have hZ : h ≠ 'Z' := by
        rw [hz]
        decide
      rw [hrun, if_neg hZ, if_pos hz]
    · intro hZ hz
      have hZn : h.toNat ≠ 90 := fun hc => hZ (charEq_of_toNat (by rw [hc]; rfl))
      have hzn : h.toNat ≠ 122 := fun hc => hz (charEq_of_toNat (by rw [hc]; rfl))
      rcases gil_cases hgil with ⟨hb1, hb2, hb3⟩ | ⟨hb1, hb2, hb3⟩
      · -- lowercase head, not 'z'
        have hofn : (Char.ofNat (h.toNat + 1)).toNat = h.toNat + 1 :=
          toNat_ofNat_small (by omega)
        have hpos : 'a' < Char.ofNat (h.toNat + 1) := by
          rw [charLt_iff, hofn, hca]
          omega
        refine ⟨Char.ofNat (h.toNat + 1) :: (List.replicate t.length zero ++ [zero]),
          ?_, by simp, hofn, ?_, ?_⟩
        · rw [hrun, if_neg hZ, if_neg hz, if_pos hpos]
        · rw [gil_lower (by omega) (by omega), hofn]
          simp only [List.length_cons, List.length_append, List.length_replicate,
            List.length_singleton, List.length_nil]
          congr 1
          omega
        · left
          simp only [List.length_cons, List.length_append, List.length_replicate,
            List.length_singleton, List.length_nil]
      · -- uppercase head, not 'Z'
        have hofn : (Char.ofNat (h.toNat + 1)).toNat = h.toNat + 1 :=
          toNat_ofNat_small (by omega)
        have hneg : ¬ ('a' < Char.ofNat (h.toNat + 1)) := by
          rw [charLt_iff, hofn, hca]
          omega
        have htl : 1 ≤ t.length := by omega
        refine ⟨Char.ofNat (h.toNat + 1) :: (List.replicate t.length zero).dropLast,
          ?_, by simp, hofn, ?_, ?_⟩
        · rw [hrun, if_neg hZ, if_neg hz, if_neg hneg]
        · rw [gil_upper (by omega) (by omega), hofn]
          simp only [List.length_cons, List.length_dropLast, List.length_replicate,
            List.length_nil]
          congr 1
          omega
        · right
          simp only [List.length_cons, List.length_dropLast, List.length_replicate,
            List.length_nil]
          omega
  · -- decrement, all digits at the zero digit
    intro hsat
    have hscan : decDigitsAux (zero :: rest) ((zero :: rest).getLastD 'x') t.reverse =
        .ok none := by
      apply decDigitsAux_none
      intro c hc
      rw [hsat c (List.mem_reverse.mp hc), hzd]
      refine ⟨zeroD_mem hd.ne_nil, ?_⟩
      rw [← hzd]
      exact indexOf_zeroD hd.ne_nil
    have hmx : (zero :: rest).getLastD 'x' = maxD (zero :: rest) := rfl
    have hrun : decrement_integer (h :: t) (zero :: rest) =
        (if h = 'a' then .ok (some ['Z', (zero :: rest).getLastD 'x'])
         else if h = 'A' then .ok none
         else
           if Char.ofNat (h.toNat - 1) < 'Z' then
             .ok (some (Char.ofNat (h.toNat - 1) ::
               (List.replicate t.length ((zero :: rest).getLastD 'x') ++
                 [(zero :: rest).getLastD 'x'])))
           else
             .ok (some (Char.ofNat (h.toNat - 1) ::
               (List.replicate t.length ((zero :: rest).getLastD 'x')).dropLast))) := by
      simp only [decrement_integer, hvi, hscan]
    refine ⟨?_, ?_, ?_⟩
    · intro ha
      rw [hrun, if_pos ha, hmx]
    · intro hA
      have ha : h ≠ 'a' := by
        rw [hA]
        decide
      rw [hrun, if_neg ha, if_pos hA]
    · intro ha hA
      have han : h.toNat ≠ 97 := fun hc => ha (charEq_of_toNat (by rw [hc]; rfl))
      have hAn : h.toNat ≠ 65 := fun hc => hA (charEq_of_toNat (by rw [hc]; rfl))
      rcases gil_cases hgil with ⟨hb1, hb2, hb3⟩ | ⟨hb1, hb2, hb3⟩
      · -- lowercase head, not 'a'
        have hofn : (Char.ofNat (h.toNat - 1)).toNat = h.toNat - 1 :=
          toNat_ofNat_small (by omega)
        have hneg : ¬ (Char.ofNat (h.toNat - 1) < 'Z') := by
          rw [charLt_iff, hofn, hcZ]
          omega
        have htl : 1 ≤ t.length := by omega
        refine ⟨Char.ofNat (h.toNat - 1) ::
          (List.replicate t.length ((zero :: rest).getLastD 'x')).dropLast,
          ?_, by simp, hofn, ?_, ?_⟩
        · rw [hrun, if_neg ha, if_neg hA, if_neg hneg]
        · rw [gil_lower (by omega) (by omega), hofn]
          simp only [List.length_cons, List.length_dropLast, List.length_replicate,
            List.length_nil]
          congr 1
          omega
        · right
          simp only [List.length_cons, List.length_dropLast, List.length_replicate,
            List.length_nil]
          omega
      · -- uppercase head, not 'A'
        have hofn : (Char.ofNat (h.toNat - 1)).toNat = h.toNat - 1 :=
          toNat_ofNat_small (by omega)
        have hpos : Char.ofNat (h.toNat - 1) < 'Z' := by
          rw [charLt_iff, hofn, hcZ]
          omega
        refine ⟨Char.ofNat (h.toNat - 1) ::
          (List.replicate t.length ((zero :: rest).getLastD 'x') ++
            [(zero :: rest).getLastD 'x']),
          ?_, by simp, hofn, ?_, ?_⟩
        · rw [hrun, if_neg ha, if_neg hA, if_pos hpos]
        · rw [gil_upper (by omega) (by omega), hofn]
          simp only [List.length_cons, List.length_append, List.length_replicate,
            List.length_singleton, List.length_nil]
          congr 1
          omega
        · left
          simp only [List.length_cons, List.length_append, List.length_replicate,
            List.length_singleton, List.length_nil]

/-- C6 witness: over the default alphabet, "az" (head 'a', one saturated
digit) increments to "b00": the head advances to 'b' and a zero digit is
appended, matching the declared length 3 of head 'b'. -/
theorem claim_C6_witness :
    ∃ v, increment_integer ['a', 'z'] BASE_62_DIGITS = .ok (some v) ∧
      v.head? = some (Char.ofNat ('a'.toNat + 1)) ∧
      (Char.ofNat ('a'.toNat + 1)).toNat = 'a'.toNat + 1 ∧
      get_integer_length (Char.ofNat ('a'.toNat + 1)) = .ok v.length ∧
      (v.length = (['a', 'z'] : Str).length + 1 ∨
        v.length + 1 = (['a', 'z'] : Str).length) :=
  ((@claim_C6 BASE_62_DIGITS (by decide) 'a' ['z'] (by decide)).1
    (by decide)).2.2 (by decide) (by decide)
